import Mathlib

/-!
Verification of the TOP (Team Orienteering Problem) optimization engine.

This file is a shallow embedding of the Python sources `top/problem.py`,
`top/heuristic.py`, `top/localsearch.py` and `top/simulation.py`:

* Python `dict[int, V]` values (a `Problem`'s routes mapping and a
  `Solution`'s reverse index) are modelled as insertion-ordered association
  lists `List (Nat × V)`; `d[k] = v` updates in place when the key is
  present and appends otherwise, exactly like a Python dict.
* Python floats are modelled as rationals.
* Randomness (`random.random()`, `random.choice`, `random.randrange`,
  `numpy` lognormal samples) is modelled by explicit oracle parameters, so
  theorems quantify over every outcome of the random draws.
* Python exceptions (`KeyError`, `IndexError`, `ValueError`,
  `math domain error`, `StopIteration`) are modelled by `Option`: a
  function returns `none` exactly where the Python code raises.
* The two `while` loops without a structural bound (the 2-opt sweep and the
  inner loop of the constructive heuristic) take an explicit `fuel`
  argument; fuel exhaustion returns the current state, and every invariant
  below is proved for every fuel value, hence for the terminating Python
  run, which equals the run with any sufficiently large fuel.
-/

namespace TOP

/-! ### Python dicts as insertion-ordered association lists -/

/-- Lookup in a Python dict modelled as an association list (`d.get(k)` /
`d[k]`, the latter raising instead of returning `none` at call sites that
model the raise explicitly). -/
def dlookup {β : Type} (k : ℕ) : List (ℕ × β) → Option β
  | [] => none
  | (a, b) :: t => if a = k then some b else dlookup k t

/-- The keys of a dict, in insertion order (`list(d.keys())`). -/
def dkeys {β : Type} (d : List (ℕ × β)) : List ℕ := d.map Prod.fst

/-- The values of a dict, in insertion order (`list(d.values())`). -/
def dvalues {β : Type} (d : List (ℕ × β)) : List β := d.map Prod.snd

/-- Python `d[k] = v`: overwrite in place when `k` is present, append a new
binding otherwise. -/
def dinsert {β : Type} (k : ℕ) (v : β) (d : List (ℕ × β)) : List (ℕ × β) :=
  if k ∈ dkeys d then d.map (fun kv => if kv.1 = k then (k, v) else kv) else d ++ [(k, v)]

/-- Python `d.pop(k)` at call sites where the key is known to be present:
drop the binding. -/
def dpop {β : Type} (k : ℕ) (d : List (ℕ × β)) : List (ℕ × β) :=
  d.filter (fun kv => kv.1 ≠ k)

/-- Python `d.pop(k)` with no default: raises `KeyError` when `k` is
absent. -/
def dpopE {β : Type} (k : ℕ) (d : List (ℕ × β)) : Option (List (ℕ × β)) :=
  if (dlookup k d).isSome then some (dpop k d) else none

/-! ### The data model (`top/problem.py`)

`read_instance` numbers the customers `0, 1, ..., N-1` in file order, with
the source depot at id `0` and the sink depot at id `N-1`, and fills the
distance table for every ordered pair of distinct ids.  We therefore model
a `Problem` by the number `n` of customers together with total reward and
distance functions; the `Customer` records of the source carry no data
beyond the reward that the engine ever reads (coordinates are only used by
the excluded loader and plotter). -/

structure Problem where
  nTrucks : ℕ
  tmax : ℚ
  /-- number of customers; ids are `0 .. n - 1`, source `0`, sink `n - 1` -/
  n : ℕ
  reward : ℕ → ℤ
  dists : ℕ → ℕ → ℚ

structure Route where
  id : ℕ
  customers : List ℕ
  length : ℚ
  reward : ℤ
deriving DecidableEq

structure Solution where
  routes : List (ℕ × Route)
  cToR : List (ℕ × ℕ)
deriving DecidableEq

/-- The interior of a customer sequence: Python `customers[1:-1]`. -/
def interiorL (l : List ℕ) : List ℕ := (l.drop 1).dropLast

/-- Recorded length recomputation: Python
`sum(dists[i, j] for i, j in zip(l[:-1], l[1:]))`. -/
def legsSum (d : ℕ → ℕ → ℚ) : List ℕ → ℚ
  | [] => 0
  | [_] => 0
  | a :: b :: t => d a b + legsSum d (b :: t)

/-! ### `top/heuristic.py` -/

/-- `init_solution`: one singleton route `[source, c, sink]` per reachable
customer, with route ids counted up from 0. -/
def initSolution (p : Problem) : Solution :=
  let step := fun (acc : List (ℕ × Route) × List (ℕ × ℕ) × ℕ) (id : ℕ) =>
    if id = 0 ∨ id = p.n - 1 then acc
    else
      let t := p.dists 0 id + p.dists id (p.n - 1)
      if t ≤ p.tmax then
        (dinsert acc.2.2 ⟨acc.2.2, [0, id, p.n - 1], t, p.reward id⟩ acc.1,
         dinsert id acc.2.2 acc.2.1, acc.2.2 + 1)
      else acc
  let res := (List.range p.n).foldl step ([], [], 0)
  ⟨res.1, res.2.1⟩

structure Saving where
  inode : ℕ
  jnode : ℕ
  value : ℚ
  distanceSaving : ℚ
  rewardSaving : ℚ
deriving DecidableEq

/-- Iteration order of `p.dists.items()`: `read_instance` inserts, for each
combination `i < j` in increasing order, first `(i, j)` then `(j, i)`. -/
def distPairs (n : ℕ) : List (ℕ × ℕ) :=
  (List.range n).flatMap fun i =>
    ((List.range n).filter (fun j => i < j)).flatMap fun j => [(i, j), (j, i)]

/-- `generate_savings`: one saving per ordered pair of distinct non-depot
customers. -/
def generateSavings (p : Problem) (alpha : ℚ) : List Saving :=
  (distPairs p.n).filterMap fun ij =>
    if ij.1 = 0 ∨ ij.1 = p.n - 1 ∨ ij.2 = 0 ∨ ij.2 = p.n - 1 then none
    else
      let ds := p.dists ij.1 (p.n - 1) + p.dists 0 ij.2 - p.dists ij.1 ij.2
      let rs := ((p.reward ij.1 + p.reward ij.2 : ℤ) : ℚ)
      some ⟨ij.1, ij.2, alpha * ds + (1 - alpha) * rs, ds, rs⟩

/-- Python `sorted(lst, key=attrgetter val, reverse=True)`: stable
descending sort by `val`. -/
def sortDescBy {α : Type} (val : α → ℚ) (l : List α) : List α :=
  l.insertionSort fun a b => val b ≤ val a

/-- The body of `bra_selector`'s `for _ in range(n)` loop: the first
argument is the remaining iteration count (initially the input length),
`k` indexes the oracle stream, and `draws k` models the nonnegative
integer `int(math.log(u_k, 1.0 - beta))` obtained from the k-th uniform
draw `u_k` (for `0 < beta < 1` that value ranges over all of ℕ as `u_k`
ranges over `(0,1)`). -/
def braConsume {α : Type} (draws : ℕ → ℕ) : ℕ → ℕ → List α → List α
  | 0, _, _ => []
  | fuel + 1, k, options =>
    match options with
    | [] => []
    | a :: t =>
      let idx := draws k % (a :: t).length
      (a :: t).getD idx a :: braConsume draws fuel (k + 1) ((a :: t).eraseIdx idx)

/-- `bra_selector`, realised as the full list of its yields.  The generator
sorts once and then pops `n` times at index
`int(math.log(random.random(), 1.0 - beta)) % len(options)`.  For
`beta = 0` the log base is `1.0` (`ZeroDivisionError`) and for
`beta ≥ 1` the base is `≤ 0` (`ValueError: math domain error`); either
is raised at the first draw, i.e. exactly when the input is nonempty. -/
def braSelector {α : Type} (val : α → ℚ) (beta : ℚ) (draws : ℕ → ℕ) (lst : List α) :
    Option (List α) :=
  if lst.isEmpty then some []
  else if beta = 0 ∨ 1 ≤ beta then none
  else some (braConsume draws lst.length 0 (sortDescBy val lst))

/-- `next(bra_selector(lst, beta))` as used by the constructive heuristic:
only the first yield is consumed and only one uniform draw happens. On an
empty list the generator would raise `StopIteration`. -/
def braFirst {α : Type} (val : α → ℚ) (beta : ℚ) (draw : ℕ) (lst : List α) : Option α :=
  if lst.isEmpty then none
  else if beta = 0 ∨ 1 ≤ beta then none
  else (sortDescBy val lst).get? (draw % lst.length)

/-- `merge_routes`.  The Python function mutates `solution.c_to_r` (it
remaps every interior customer of the second route to the first route's
id) and returns a fresh `Route`; we return the new route together with
the updated reverse index.  Its `iroute.customers[-2]` and
`jroute.customers[1]` accesses are guarded by the caller's checks, which
guarantee both routes have at least two customers. -/
def mergeRoutes (p : Problem) (cToR : List (ℕ × ℕ)) (iroute jroute : Route) :
    Route × List (ℕ × ℕ) :=
  let icId := iroute.customers.getD (iroute.customers.length - 2) 0
  let jcId := jroute.customers.getD 1 0
  let cToR' := (interiorL jroute.customers).foldl (fun d i => dinsert i iroute.id d) cToR
  (⟨iroute.id,
    iroute.customers.dropLast ++ jroute.customers.drop 1,
    iroute.length - p.dists icId (p.n - 1) + p.dists icId jcId + jroute.length
      - p.dists 0 jcId,
    iroute.reward + jroute.reward⟩, cToR')

/-- Python `l[-2]`: raises `IndexError` unless the list has at least two
elements. -/
def pyNeg2 (l : List ℕ) : Option ℕ :=
  if 2 ≤ l.length then some (l.getD (l.length - 2) 0) else none

/-- Python `l[1]`: raises `IndexError` unless the list has at least two
elements. -/
def pySnd (l : List ℕ) : Option ℕ :=
  if 2 ≤ l.length then some (l.getD 1 0) else none

/-- One iteration of the merge loop of `savings_heuristic` on one drawn
saving.  The returned `Bool` is `true` when the iteration falls through to
the `len(solution.routes) <= p.n_trucks` early-exit check (the two
`continue` statements skip it).  `none` models the Python exceptions:
`customers[ic_id]` on an out-of-range id, `solution.routes[iroute_id]` on
a dangling reverse-index entry, and the `[-2]`/`[1]` accesses on a route
with fewer than two customers. -/
def mergeStep (p : Problem) (sol : Solution) (s : Saving) : Option (Solution × Bool) :=
  if s.inode < p.n ∧ s.jnode < p.n then
    match dlookup s.inode sol.cToR, dlookup s.jnode sol.cToR with
    | some iId, some jId =>
      if iId = jId then some (sol, false)
      else
        match dlookup iId sol.routes, dlookup jId sol.routes with
        | some iroute, some jroute => do
          let ic2 ← pyNeg2 iroute.customers
          if ic2 = s.inode then do
            let jc1 ← pySnd jroute.customers
            if jc1 = s.jnode then
              if iroute.length - p.dists s.inode (p.n - 1) + jroute.length
                  - p.dists 0 s.jnode + p.dists s.inode s.jnode ≤ p.tmax then do
                let mr := mergeRoutes p sol.cToR iroute jroute
                let routes1 ← dpopE iId sol.routes
                let routes2 ← dpopE jId routes1
                some (⟨dinsert mr.1.id mr.1 routes2, mr.2⟩, true)
              else some (sol, true)
            else some (sol, true)
          else some (sol, true)
        | _, _ => none
    | _, _ => some (sol, false)
  else none

/-- The `for saving in bra_selector(...)` loop of `savings_heuristic`,
with the early `break` once at most `n_trucks` routes remain. -/
def mergeLoop (p : Problem) : List Saving → Solution → Option Solution
  | [], sol => some sol
  | s :: rest, sol => do
    let r ← mergeStep p sol s
    if r.2 ∧ r.1.routes.length ≤ p.nTrucks then some r.1
    else mergeLoop p rest r.1

/-- The `top_routes` of lines 110: `heapq.nlargest(n_trucks, values,
key=reward)`, equivalent to a stable descending sort followed by
`take`. -/
def topRoutes (p : Problem) (sol : Solution) : List Route :=
  (sortDescBy (fun r : Route => (r.reward : ℚ)) (dvalues sol.routes)).take p.nTrucks

/-- Lines 110-112 of `heuristic.py`: keep the `n_trucks` highest-reward
routes and rebuild the reverse index from their non-depot customers. -/
def finalize (p : Problem) (sol : Solution) : Solution :=
  let top := topRoutes p sol
  ⟨top.foldl (fun d r => dinsert r.id r d) [],
   top.foldl (fun d r =>
     (r.customers.filter fun c => ¬(c = 0 ∨ c = p.n - 1)).foldl
       (fun d' c => dinsert c r.id d') d) []⟩

/-- `savings_heuristic`.  `draws` is the oracle for the biased-randomized
selector (one natural number per uniform draw, see `braConsume`), `seed`
the optional starting solution. -/
def savingsHeuristic (p : Problem) (alpha beta : ℚ) (draws : ℕ → ℕ)
    (seed : Option Solution) : Option Solution := do
  let sol := match seed with
    | none => initSolution p
    | some s => s
  let order ← braSelector Saving.value beta draws (generateSavings p alpha)
  let sol' ← mergeLoop p order sol
  some (finalize p sol')

/-- State of the seed `Solution` object at the moment `savings_heuristic`
returns.  The Python function mutates the seed it was passed — the merge
loop pops from and inserts into `solution.routes`, `merge_routes` writes
into `solution.c_to_r`, and lines 111-112 reassign `solution.routes` and
`solution.c_to_r` wholesale — and then returns that very object, so the
seed's final `routes`/`c_to_r` are the returned Solution's fields, not
their pre-call values. -/
def savingsHeuristicSeedAfter (p : Problem) (alpha beta : ℚ) (draws : ℕ → ℕ)
    (seed : Solution) : Option Solution :=
  savingsHeuristic p alpha beta draws (some seed)

structure ConstructiveStep where
  id : ℕ
  reward : ℤ
  value : ℚ
deriving DecidableEq

/-- The feasible-candidate list rebuilt at each iteration of the inner
`while` of `constructive_heuristic`. -/
def constructiveCandidates (p : Problem) (alpha : ℚ) (visited : List ℕ) (cnode : ℕ)
    (cdist : ℚ) : List ConstructiveStep :=
  (List.range p.n).filterMap fun id =>
    if id ∉ visited ∧ cdist + p.dists cnode id + p.dists id (p.n - 1) ≤ p.tmax then
      some ⟨id, p.reward id,
        (p.reward id : ℚ) * (1 - alpha)
          + alpha * (p.dists cnode (p.n - 1) - p.dists cnode id - p.dists id (p.n - 1))⟩
    else none

/-- Mutable state of the inner `while` loop of `constructive_heuristic`:
the global visited set (modelled as a list, only membership is used), the
reverse index under construction, the partial route, the current node,
length and reward, and the position in the random-draw stream. -/
structure CState where
  visited : List ℕ
  cToR : List (ℕ × ℕ)
  route : List ℕ
  cnode : ℕ
  cdist : ℚ
  creward : ℤ
deriving DecidableEq

/-- The inner `while` loop of `constructive_heuristic` for one truck
(`routeId`), with fuel bounding the number of iterations (the Python loop
terminates because every iteration adds a customer to the visited set). -/
def constructiveInner (p : Problem) (alpha beta : ℚ) (draws : ℕ → ℕ) (routeId : ℕ) :
    ℕ → ℕ → CState → Option (CState × ℕ)
  | 0, k, st => some (st, k)
  | fuel + 1, k, st =>
    let cands := constructiveCandidates p alpha st.visited st.cnode st.cdist
    if cands.isEmpty then some (st, k)
    else do
      let cs ← braFirst ConstructiveStep.value beta (draws k) cands
      constructiveInner p alpha beta draws routeId fuel (k + 1)
        ⟨st.visited ++ [cs.id], dinsert cs.id routeId st.cToR, st.route ++ [cs.id],
         cs.id, st.cdist + p.dists st.cnode cs.id, st.creward + cs.reward⟩

/-- The `for i in range(n_trucks)` loop of `constructive_heuristic`. -/
def constructiveTrucks (p : Problem) (alpha beta : ℚ) (draws : ℕ → ℕ) (fuel : ℕ) :
    List ℕ → List (ℕ × Route) × List (ℕ × ℕ) × List ℕ × ℕ →
    Option (List (ℕ × Route) × List (ℕ × ℕ) × List ℕ × ℕ)
  | [], acc => some acc
  | i :: rest, (routes, cToR, visited, k) => do
    let r ← constructiveInner p alpha beta draws i fuel k ⟨visited, cToR, [0], 0, 0, 0⟩
    let st := r.1
    let newRoute : Route := ⟨i, st.route ++ [p.n - 1], st.cdist + p.dists st.cnode (p.n - 1),
      st.creward⟩
    constructiveTrucks p alpha beta draws fuel rest
      (dinsert i newRoute routes, st.cToR, st.visited, r.2)

/-- `constructive_heuristic`: up to `n_trucks` routes built sequentially;
the initial visited set is `{source, target}`. -/
def constructiveHeuristic (p : Problem) (alpha beta : ℚ) (draws : ℕ → ℕ) (fuel : ℕ) :
    Option Solution := do
  let acc ← constructiveTrucks p alpha beta draws fuel (List.range p.nTrucks)
    ([], [], [0, p.n - 1], 0)
  some ⟨acc.1, acc.2.1⟩

/-! ### `top/localsearch.py` -/

/-- The slice assignment `customers[i:j] = reversed(customers[i:j])`. -/
def revSeg (l : List ℕ) (i j : ℕ) : List ℕ :=
  l.take i ++ ((l.drop i).take (j - i)).reverse ++ l.drop j

/-- The `(i, j)` pairs visited by one full 2-opt sweep:
`for i in range(1, n - 2): for j in range(i + 2, n)`. -/
def sweepPairs (n : ℕ) : List (ℕ × ℕ) :=
  (List.range' 1 (n - 3)).flatMap fun i =>
    (List.range' (i + 2) (n - (i + 2))).map fun j => (i, j)

/-- The body of the double `for` of `opt2` at one pair `(i, j)`: compare
the two current edges with the crossed pair and, on strict improvement,
reverse the segment and apply the length delta.  The `Bool` is the
`improved` flag. -/
def opt2Step (d : ℕ → ℕ → ℚ) (st : List ℕ × ℚ × Bool) (ij : ℕ × ℕ) : List ℕ × ℚ × Bool :=
  let cs := st.1
  let cur := d (cs.getD (ij.1 - 1) 0) (cs.getD ij.1 0) + d (cs.getD (ij.2 - 1) 0) (cs.getD ij.2 0)
  let nxt := d (cs.getD (ij.1 - 1) 0) (cs.getD (ij.2 - 1) 0) + d (cs.getD ij.1 0) (cs.getD ij.2 0)
  if nxt < cur then (revSeg cs ij.1 ij.2, st.2.1 - cur + nxt, true) else st

/-- One full sweep of the `while improved` body, starting with
`improved = False`. -/
def opt2Sweep (d : ℕ → ℕ → ℚ) (cs : List ℕ) (len : ℚ) : List ℕ × ℚ × Bool :=
  (sweepPairs cs.length).foldl (opt2Step d) (cs, len, false)

/-- The `while improved` loop with fuel bounding the number of sweeps. -/
def opt2Loop (d : ℕ → ℕ → ℚ) : ℕ → List ℕ → ℚ → List ℕ × ℚ
  | 0, cs, len => (cs, len)
  | fuel + 1, cs, len =>
    let r := opt2Sweep d cs len
    if r.2.2 then opt2Loop d fuel r.1 r.2.1 else (r.1, r.2.1)

/-- `opt2`: first-improvement 2-opt on a route; id and reward are carried
over, the customer list and the delta-updated length are replaced.  Each
improving step strictly decreases the length, so the Python loop
terminates and equals `opt2` at every sufficiently large fuel; the
theorems below hold for every fuel. -/
def opt2 (p : Problem) (route : Route) (fuel : ℕ) : Route :=
  let r := opt2Loop p.dists fuel route.customers route.length
  ⟨route.id, r.1, r.2, route.reward⟩

/-- The route key picked by `random.choice(list(routes.keys()))`; `pick`
is the oracle for the uniform choice. -/
def pickKey (sol : Solution) (pick : ℕ) : ℕ :=
  (dkeys sol.routes).getD (pick % (dkeys sol.routes).length) 0

/-- `shaking`: drop one random route, release its interior customers,
rebuild a singleton round trip for every unassigned reachable customer
using ids above the current maximum, and re-run the savings heuristic.
`none` models `random.choice` on an empty route dict (`IndexError`),
`c_to_r.pop` on an unindexed released customer (`KeyError`) and — the
interesting case — `max(routes.keys())` on the empty dict remaining after
the only route was popped (`ValueError: max() arg is an empty
sequence`). -/
def shaking (p : Problem) (sol : Solution) (alpha beta : ℚ) (pick : ℕ) (draws : ℕ → ℕ) :
    Option Solution :=
  if sol.routes.isEmpty then none
  else do
    let routeId := pickKey sol pick
    let route ← dlookup routeId sol.routes
    let routes := dpop routeId sol.routes
    let cToR ← (interiorL route.customers).foldlM (fun d i => dpopE i d) sol.cToR
    match dkeys routes with
    | [] => none
    | k :: ks =>
      let start := ks.foldl max k + 1
      let acc := (List.range p.n).foldl
        (fun (acc : List (ℕ × Route) × List (ℕ × ℕ) × ℕ) i =>
          if (dlookup i acc.2.1).isSome ∨ i = 0 ∨ i = p.n - 1 then acc
          else
            let t := p.dists 0 i + p.dists i (p.n - 1)
            if t ≤ p.tmax then
              (dinsert acc.2.2 ⟨acc.2.2, [0, i, p.n - 1], t, p.reward i⟩ acc.1,
               dinsert i acc.2.2 acc.2.1, acc.2.2 + 1)
            else acc)
        (routes, cToR, start)
      savingsHeuristic p alpha beta draws (some ⟨acc.1, acc.2.1⟩)

/-- The body of `insert`'s `for id, c in p.customers.items()` loop:
skip assigned customers and depots, otherwise splice `id` right after
the source, recompute the length from scratch, 2-opt, and commit only if
the result fits in `tmax`. -/
def insertStep (p : Problem) (routeId : ℕ) (fuel : ℕ)
    (acc : List (ℕ × Route) × List (ℕ × ℕ)) (id : ℕ) :
    Option (List (ℕ × Route) × List (ℕ × ℕ)) :=
  if (dlookup id acc.2).isSome ∨ id = 0 ∨ id = p.n - 1 then some acc
  else do
    let route ← dlookup routeId acc.1
    let newCs := route.customers.take 1 ++ id :: route.customers.drop 1
    let nr := opt2 p ⟨routeId, newCs, legsSum p.dists newCs, route.reward + p.reward id⟩ fuel
    if nr.length ≤ p.tmax then some (dinsert routeId nr acc.1, dinsert id routeId acc.2)
    else some acc

/-- `insert`: pick one route at random and try to add every unassigned
customer to it.  `none` models `random.choice` on an empty dict and the
(unreachable) `routes.get` miss. -/
def insert (p : Problem) (sol : Solution) (pick : ℕ) (fuel : ℕ) : Option Solution :=
  if sol.routes.isEmpty then none
  else do
    let acc ← (List.range p.n).foldlM (insertStep p (pickKey sol pick) fuel)
      (sol.routes, sol.cToR)
    some ⟨acc.1, acc.2⟩

/-- The candidate replacement route built by `remove` after dropping the
customer at position `idx` of the picked route: the recorded length is
delta-updated from the three affected legs and the result is 2-opted. -/
def removeCandidate (p : Problem) (rid : ℕ) (route : Route) (idx : ℕ) (fuel : ℕ) : Route :=
  opt2 p
    ⟨rid,
     route.customers.take idx ++ route.customers.drop (idx + 1),
     route.length - p.dists (route.customers.getD (idx - 1) 0) (route.customers.getD idx 0)
       - p.dists (route.customers.getD idx 0) (route.customers.getD (idx + 1) 0)
       + p.dists (route.customers.getD (idx - 1) 0) (route.customers.getD (idx + 1) 0),
     route.reward - p.reward (route.customers.getD idx 0)⟩
    fuel

/-- The interior position drawn by `random.randrange(1, len - 1)`;
`pick2` is the oracle for the uniform choice. -/
def removeIdx (route : Route) (pick2 : ℕ) : ℕ :=
  1 + pick2 % (route.customers.length - 2)

/-- `remove`: pick one route at random; return the solution unchanged when
it has at most one interior customer; otherwise drop a random interior
customer, 2-opt, and commit only if the result fits in `tmax`.  `none`
models `random.choice` on an empty dict and `c_to_r.pop` on an unindexed
customer. -/
def remove (p : Problem) (sol : Solution) (pick pick2 : ℕ) (fuel : ℕ) : Option Solution :=
  if sol.routes.isEmpty then none
  else do
    let routeId := pickKey sol pick
    let route ← dlookup routeId sol.routes
    if route.customers.length ≤ 3 then some ⟨sol.routes, sol.cToR⟩
    else
      let idx := removeIdx route pick2
      let nr := removeCandidate p routeId route idx fuel
      if nr.length ≤ p.tmax then do
        let cToR' ← dpopE (route.customers.getD idx 0) sol.cToR
        some ⟨dinsert routeId nr sol.routes, cToR'⟩
      else some ⟨sol.routes, sol.cToR⟩

/-! ### `top/simulation.py` -/

/-- `get_route_stochastic_reward`.  The per-leg lognormal samples are
modelled by the oracle `sims trial leg` (the lognormal support is
`(0, ∞)`, but no bound on the samples is needed for the claims); the
result is the deterministic reward scaled by the fraction of the `n_iter`
trials whose simulated leg times sum to at most `tmax`.  Python would
raise `ZeroDivisionError` at `n_iter = 0`; the claims assume
`n_iter ≥ 1`. -/
def getRouteStochasticReward (p : Problem) (route : Route) (nIter : ℕ)
    (sims : ℕ → ℕ → ℚ) : ℚ :=
  let nLegs := route.customers.length - 1
  let total := fun trial => ((List.range nLegs).map (sims trial)).sum
  (route.reward : ℚ) *
    ((((List.range nIter).countP fun trial => total trial ≤ p.tmax) : ℕ) : ℚ) / nIter

/-! ### Dict lemmas -/

theorem dlookup_cons {β : Type} (k : ℕ) (kv : ℕ × β) (t : List (ℕ × β)) :
    dlookup k (kv :: t) = if kv.1 = k then some kv.2 else dlookup k t := by
  obtain ⟨a, b⟩ := kv
  rfl

theorem dpop_cons {β : Type} (k : ℕ) (kv : ℕ × β) (t : List (ℕ × β)) :
    dpop k (kv :: t) = if kv.1 = k then dpop k t else kv :: dpop k t := by
  by_cases h : kv.1 = k <;> simp [dpop, h]

theorem dlookup_eq_none {β : Type} {k : ℕ} {d : List (ℕ × β)} :
    dlookup k d = none ↔ k ∉ dkeys d := by
  induction d with
  | nil => simp [dlookup, dkeys]
  | cons kv t ih =>
    obtain ⟨a, b⟩ := kv
    by_cases h : a = k
    · subst h
      simp [dlookup, dkeys]
    · simp [dlookup, dkeys, h, ih, Ne.symm h]

theorem dlookup_isSome {β : Type} {k : ℕ} {d : List (ℕ × β)} :
    (dlookup k d).isSome ↔ k ∈ dkeys d := by
  simp [Option.isSome_iff_ne_none, Ne, dlookup_eq_none]

theorem dlookup_mem {β : Type} {k : ℕ} {v : β} {d : List (ℕ × β)}
    (h : dlookup k d = some v) : (k, v) ∈ d := by
  induction d with
  | nil => simp [dlookup] at h
  | cons kv t ih =>
    obtain ⟨a, b⟩ := kv
    by_cases hak : a = k
    · subst hak
      simp [dlookup] at h
      simp [h]
    · simp [dlookup, hak] at h
      exact List.mem_cons_of_mem _ (ih h)

/-- Keys without duplicates: the invariant every dict in the program
maintains. -/
def NodupKeys {β : Type} (d : List (ℕ × β)) : Prop := (dkeys d).Nodup

theorem mem_dlookup {β : Type} {k : ℕ} {v : β} {d : List (ℕ × β)}
    (hn : NodupKeys d) (h : (k, v) ∈ d) : dlookup k d = some v := by
  induction d with
  | nil => simp at h
  | cons kv t ih =>
    obtain ⟨a, b⟩ := kv
    simp only [NodupKeys, dkeys, List.map_cons, List.nodup_cons] at hn
    rcases List.mem_cons.1 h with h1 | h1
    · cases h1
      simp [dlookup]
    · have hak : a ≠ k := by
        rintro rfl
        exact hn.1 (List.mem_map.2 ⟨(a, v), h1, rfl⟩)
      simp [dlookup, hak]
      exact ih hn.2 h1

theorem entry_unique {β : Type} {d : List (ℕ × β)} (hn : NodupKeys d)
    {kv1 kv2 : ℕ × β} (h1 : kv1 ∈ d) (h2 : kv2 ∈ d) (hk : kv1.1 = kv2.1) : kv1 = kv2 := by
  obtain ⟨k1, v1⟩ := kv1
  obtain ⟨k2, v2⟩ := kv2
  simp at hk
  subst hk
  have e1 := mem_dlookup hn h1
  have e2 := mem_dlookup hn h2
  rw [e1] at e2
  simp at e2
  simp [e2]

theorem dkeys_dinsert_of_mem {β : Type} {k : ℕ} {v : β} {d : List (ℕ × β)}
    (h : k ∈ dkeys d) : dkeys (dinsert k v d) = dkeys d := by
  rw [dinsert, if_pos h]
  simp only [dkeys, List.map_map]
  apply List.map_congr_left
  intro kv _
  by_cases hk : kv.1 = k <;> simp [hk]

theorem dkeys_dinsert_of_not_mem {β : Type} {k : ℕ} {v : β} {d : List (ℕ × β)}
    (h : k ∉ dkeys d) : dkeys (dinsert k v d) = dkeys d ++ [k] := by
  rw [dinsert, if_neg h]
  simp [dkeys]

theorem nodupKeys_dinsert {β : Type} {k : ℕ} {v : β} {d : List (ℕ × β)}
    (hn : NodupKeys d) : NodupKeys (dinsert k v d) := by
  by_cases h : k ∈ dkeys d
  · unfold NodupKeys
    rw [dkeys_dinsert_of_mem h]
    exact hn
  · unfold NodupKeys
    rw [dkeys_dinsert_of_not_mem h]
    simpa [List.nodup_append] using ⟨hn, h⟩

theorem mem_dinsert {β : Type} {k : ℕ} {v : β} {d : List (ℕ × β)} {kv : ℕ × β}
    (h : kv ∈ dinsert k v d) : kv = (k, v) ∨ (kv ∈ d ∧ kv.1 ≠ k) := by
  by_cases hm : k ∈ dkeys d
  · rw [dinsert, if_pos hm] at h
    obtain ⟨kv0, hkv0, heq⟩ := List.mem_map.1 h
    by_cases hk : kv0.1 = k
    · left
      rw [if_pos hk] at heq
      exact heq.symm
    · right
      rw [if_neg hk] at heq
      subst heq
      exact ⟨hkv0, hk⟩
  · rw [dinsert, if_neg hm] at h
    rcases List.mem_append.1 h with h | h
    · right
      refine ⟨h, ?_⟩
      intro hk
      exact hm (hk ▸ List.mem_map.2 ⟨kv, h, rfl⟩)
    · left
      simpa using h

theorem self_mem_dinsert {β : Type} (k : ℕ) (v : β) (d : List (ℕ × β)) :
    (k, v) ∈ dinsert k v d := by
  by_cases hm : k ∈ dkeys d
  · simp only [dinsert, if_pos hm, List.mem_map]
    obtain ⟨kv, hkv, hfst⟩ := List.mem_map.1 hm
    exact ⟨kv, hkv, by simp [hfst]⟩
  · simp [dinsert, if_neg hm]

theorem mem_dinsert_of_ne {β : Type} {k : ℕ} {v : β} {d : List (ℕ × β)} {kv : ℕ × β}
    (h : kv ∈ d) (hne : kv.1 ≠ k) : kv ∈ dinsert k v d := by
  by_cases hm : k ∈ dkeys d
  · simp only [dinsert, if_pos hm, List.mem_map]
    exact ⟨kv, h, by rw [if_neg hne]⟩
  · simp [dinsert, if_neg hm, List.mem_append]
    left
    exact h

theorem dlookup_dinsert_self {β : Type} {k : ℕ} (v : β) (d : List (ℕ × β))
    (hn : NodupKeys d) : dlookup k (dinsert k v d) = some v :=
  mem_dlookup (nodupKeys_dinsert hn) (self_mem_dinsert k v d)

theorem dlookup_append {β : Type} (k : ℕ) (l1 l2 : List (ℕ × β)) :
    dlookup k (l1 ++ l2) = (dlookup k l1).or (dlookup k l2) := by
  induction l1 with
  | nil => simp [dlookup]
  | cons kv t ih =>
    obtain ⟨a, b⟩ := kv
    by_cases hak : a = k <;> simp [dlookup, hak, ih]

theorem dlookup_map_update_ne {β : Type} {k k' : ℕ} (v : β) (d : List (ℕ × β))
    (hne : k' ≠ k) :
    dlookup k' (d.map (fun kv => if kv.1 = k then (k, v) else kv)) = dlookup k' d := by
  induction d with
  | nil => simp [dlookup]
  | cons kv t ih =>
    rw [List.map_cons, dlookup_cons, dlookup_cons]
    by_cases hak : kv.1 = k
    · rw [if_pos hak]
      have h2 : ¬kv.1 = k' := by rw [hak]; exact hne.symm
      simp [hne.symm, h2, ih]
    · rw [if_neg hak]
      by_cases hak' : kv.1 = k' <;> simp [hak', ih]

theorem dlookup_dinsert_ne {β : Type} {k k' : ℕ} (v : β) (d : List (ℕ × β))
    (hne : k' ≠ k) : dlookup k' (dinsert k v d) = dlookup k' d := by
  by_cases hm : k ∈ dkeys d
  · rw [dinsert, if_pos hm]
    exact dlookup_map_update_ne v d hne
  · rw [dinsert, if_neg hm, dlookup_append]
    simp [dlookup, hne.symm]

theorem mem_dpop {β : Type} {k : ℕ} {d : List (ℕ × β)} {kv : ℕ × β} :
    kv ∈ dpop k d ↔ kv ∈ d ∧ kv.1 ≠ k := by
  simp [dpop, List.mem_filter]

theorem dkeys_dpop {β : Type} (k : ℕ) (d : List (ℕ × β)) :
    dkeys (dpop k d) = (dkeys d).filter (fun a => a ≠ k) := by
  induction d with
  | nil => simp [dpop, dkeys]
  | cons kv t ih =>
    obtain ⟨a, b⟩ := kv
    by_cases hak : a = k <;> simp [dpop, dkeys, hak] at * <;> simpa [dpop, dkeys] using ih

theorem nodupKeys_dpop {β : Type} {k : ℕ} {d : List (ℕ × β)} (hn : NodupKeys d) :
    NodupKeys (dpop k d) := by
  unfold NodupKeys
  rw [dkeys_dpop]
  exact hn.filter _

theorem dlookup_dpop_ne {β : Type} {k k' : ℕ} {d : List (ℕ × β)} (hne : k' ≠ k) :
    dlookup k' (dpop k d) = dlookup k' d := by
  induction d with
  | nil => simp [dpop]
  | cons kv t ih =>
    rw [dpop_cons, dlookup_cons]
    by_cases hak : kv.1 = k
    · have h2 : ¬kv.1 = k' := by rw [hak]; exact hne.symm
      rw [if_pos hak, if_neg h2, ih]
    · rw [if_neg hak, dlookup_cons]
      by_cases hak' : kv.1 = k' <;> simp [hak', ih]

theorem dlookup_dpop_self {β : Type} {k : ℕ} {d : List (ℕ × β)} :
    dlookup k (dpop k d) = none := by
  rw [dlookup_eq_none, dkeys_dpop]
  simp

theorem mem_dvalues {β : Type} {d : List (ℕ × β)} {v : β} :
    v ∈ dvalues d ↔ ∃ k, (k, v) ∈ d := by
  simp only [dvalues, List.mem_map]
  constructor
  · rintro ⟨⟨k, b⟩, hm, rfl⟩
    exact ⟨k, hm⟩
  · rintro ⟨k, hm⟩
    exact ⟨(k, v), hm, rfl⟩

theorem length_dinsert_le {β : Type} (k : ℕ) (v : β) (d : List (ℕ × β)) :
    (dinsert k v d).length ≤ d.length + 1 := by
  by_cases hm : k ∈ dkeys d <;> simp [dinsert, hm]

theorem length_dpop_le {β : Type} (k : ℕ) (d : List (ℕ × β)) :
    (dpop k d).length ≤ d.length :=
  List.length_filter_le _ _

/-! ### Generic fold invariant -/

theorem foldl_inv {α σ : Type} {P : σ → Prop} {f : σ → α → σ} {l : List α}
    (h : ∀ s a, a ∈ l → P s → P (f s a)) : ∀ s, P s → P (l.foldl f s) := by
  induction l with
  | nil => intro s hs; exact hs
  | cons x t ih =>
    intro s hs
    exact ih (fun s a ha => h s a (List.mem_cons_of_mem _ ha)) _ (h s x (List.mem_cons_self _ _) hs)

/-! ### Leg-sum lemmas for the 2-opt optimizer -/

theorem legsSum_cons_of_ne_nil (d : ℕ → ℕ → ℚ) (a : ℕ) {l : List ℕ} (h : l ≠ []) :
    legsSum d (a :: l) = d a (l.headD 0) + legsSum d l := by
  cases l with
  | nil => exact absurd rfl h
  | cons x t => rfl

theorem legsSum_concat (d : ℕ → ℕ → ℚ) (b : ℕ) {l : List ℕ} (h : l ≠ []) :
    legsSum d (l ++ [b]) = legsSum d l + d (l.getLastD 0) b := by
  induction l with
  | nil => exact absurd rfl h
  | cons x t ih =>
    cases t with
    | nil => simp [legsSum]
    | cons y t' =>
      have h' : (y :: t') ≠ [] := by simp
      calc legsSum d ((x :: y :: t') ++ [b])
          = d x y + legsSum d ((y :: t') ++ [b]) := rfl
        _ = d x y + (legsSum d (y :: t') + d ((y :: t').getLastD 0) b) := by rw [ih h']
        _ = legsSum d (x :: y :: t') + d ((x :: y :: t').getLastD 0) b := by
            simp [legsSum]
            ring

theorem legsSum_append_cons (d : ℕ → ℕ → ℚ) (u : List ℕ) (v : ℕ) (w : List ℕ) :
    legsSum d (u ++ v :: w) = legsSum d (u ++ [v]) + legsSum d (v :: w) := by
  induction u with
  | nil => simp [legsSum]
  | cons x u' ih =>
    cases u' with
    | nil => simp [legsSum]
    | cons y u'' =>
      calc legsSum d ((x :: y :: u'') ++ v :: w)
          = d x y + legsSum d ((y :: u'') ++ v :: w) := rfl
        _ = d x y + (legsSum d ((y :: u'') ++ [v]) + legsSum d (v :: w)) := by rw [ih]
        _ = legsSum d ((x :: y :: u'') ++ [v]) + legsSum d (v :: w) := by
            show _ = d x y + legsSum d ((y :: u'') ++ [v]) + _
            ring

theorem legsSum_reverse (d : ℕ → ℕ → ℚ) (hsym : ∀ i j, d i j = d j i) (l : List ℕ) :
    legsSum d l.reverse = legsSum d l := by
  induction l with
  | nil => rfl
  | cons a t ih =>
    cases t with
    | nil => rfl
    | cons y t' =>
      have hne : (y :: t').reverse ≠ [] := by simp
      calc legsSum d ((a :: y :: t').reverse)
          = legsSum d ((y :: t').reverse ++ [a]) := by simp
        _ = legsSum d ((y :: t').reverse) + d (((y :: t').reverse).getLastD 0) a := by
            rw [legsSum_concat d a hne]
        _ = legsSum d (y :: t') + d y a := by
            rw [ih]
            congr 1
            rw [List.getLastD_eq_getLast?, List.getLast?_reverse]
            rfl
        _ = d a y + legsSum d (y :: t') := by rw [hsym y a]; ring
        _ = legsSum d (a :: y :: t') := rfl

/-- The central 2-opt exchange computation: reversing the inner segment
`L` between fixed endpoints `a` and `b` replaces the two boundary legs and
(by symmetry) keeps the inner legs. -/
theorem legsSum_core (d : ℕ → ℕ → ℚ) (hsym : ∀ i j, d i j = d j i) (a b : ℕ)
    {L : List ℕ} (h : L ≠ []) :
    legsSum d (a :: (L.reverse ++ [b])) + (d a (L.headD 0) + d (L.getLastD 0) b) =
      legsSum d (a :: (L ++ [b])) + (d a (L.getLastD 0) + d (L.headD 0) b) := by
  have hrev : L.reverse ≠ [] := by simpa using h
  have h1 : legsSum d (a :: (L ++ [b]))
      = d a (L.headD 0) + legsSum d L + d (L.getLastD 0) b := by
    rw [legsSum_cons_of_ne_nil d a (by simp [h] : L ++ [b] ≠ []), legsSum_concat d b h]
    have : (L ++ [b]).headD 0 = L.headD 0 := by
      cases L with
      | nil => exact absurd rfl h
      | cons x t => rfl
    rw [this]
    ring
  have h2 : legsSum d (a :: (L.reverse ++ [b]))
      = d a (L.getLastD 0) + legsSum d L + d (L.headD 0) b := by
    rw [legsSum_cons_of_ne_nil d a (by simp [h] : L.reverse ++ [b] ≠ []),
      legsSum_concat d b hrev, legsSum_reverse d hsym]
    have e1 : (L.reverse ++ [b]).headD 0 = L.getLastD 0 := by
      cases hL : L.reverse with
      | nil => exact absurd hL hrev
      | cons x t =>
        rw [List.headD_eq_head?, List.getLastD_eq_getLast?, ← List.head?_reverse, hL]
        rfl
    have e2 : (L.reverse).getLastD 0 = L.headD 0 := by
      rw [List.getLastD_eq_getLast?, List.getLast?_reverse, List.headD_eq_head?]
    rw [e1, e2]
    ring
  rw [h1, h2]
  ring

theorem sweepPairs_bounds {n : ℕ} {ij : ℕ × ℕ} (h : ij ∈ sweepPairs n) :
    1 ≤ ij.1 ∧ ij.1 + 2 ≤ ij.2 ∧ ij.2 < n := by
  obtain ⟨i, j⟩ := ij
  simp only [sweepPairs, List.mem_flatMap, List.mem_map, List.mem_range',
    Prod.mk.injEq] at h
  obtain ⟨i0, ⟨k1, hk1, rfl⟩, j0, ⟨k2, hk2, rfl⟩, hi, hj⟩ := h
  omega

/-- The inner 2-opt segment `customers[i:j]` is nonempty. -/
theorem seg_ne_nil {cs : List ℕ} {i j : ℕ} (h2 : i + 2 ≤ j) (h3 : j < cs.length) :
    (cs.drop i).take (j - i) ≠ [] := by
  intro h
  have := congrArg List.length h
  simp only [List.length_take, List.length_drop, List.length_nil] at this
  omega

theorem seg_headD {cs : List ℕ} {i j : ℕ} (h2 : i + 2 ≤ j) (h3 : j < cs.length) :
    ((cs.drop i).take (j - i)).headD 0 = cs.getD i 0 := by
  have hi : i < cs.length := by omega
  rw [List.headD_eq_head?, List.head?_take, if_neg (by omega : ¬j - i = 0),
    List.head?_drop, List.getElem?_eq_getElem hi, List.getD_eq_getElem cs 0 hi]
  rfl

theorem seg_getLastD {cs : List ℕ} {i j : ℕ} (h2 : i + 2 ≤ j) (h3 : j < cs.length) :
    ((cs.drop i).take (j - i)).getLastD 0 = cs.getD (j - 1) 0 := by
  have hj1 : j - 1 < cs.length := by omega
  have hlen : ((cs.drop i).take (j - i)).length = j - i := by
    simp only [List.length_take, List.length_drop]
    omega
  rw [List.getLastD_eq_getLast?, List.getLast?_eq_getElem?, hlen, List.getElem?_take,
    if_pos (by omega : j - i - 1 < j - i), List.getElem?_drop,
    (by omega : i + (j - i - 1) = j - 1), List.getElem?_eq_getElem hj1,
    List.getD_eq_getElem cs 0 hj1]
  rfl

/-- Positional decomposition of a customer list and its 2-opt exchange at
a sweep pair `(i, j)`. -/
theorem revSeg_decomp {cs : List ℕ} {i j : ℕ} (h1 : 1 ≤ i) (h2 : i + 2 ≤ j)
    (h3 : j < cs.length) :
    cs = cs.take (i - 1) ++ cs.getD (i - 1) 0 ::
        ((cs.drop i).take (j - i) ++ cs.getD j 0 :: cs.drop (j + 1)) ∧
      revSeg cs i j = cs.take (i - 1) ++ cs.getD (i - 1) 0 ::
        (((cs.drop i).take (j - i)).reverse ++ cs.getD j 0 :: cs.drop (j + 1)) := by
  have hi1 : i - 1 < cs.length := by omega
  have hj : j < cs.length := h3
  constructor
  · conv_lhs => rw [← List.take_append_drop (i - 1) cs]
    rw [List.getD_eq_getElem cs 0 hi1]
    congr 1
    rw [List.drop_eq_getElem_cons hi1]
    congr 1
    rw [(by omega : i - 1 + 1 = i)]
    conv_lhs => rw [← List.take_append_drop (j - i) (cs.drop i)]
    congr 1
    rw [List.drop_drop, (by omega : i + (j - i) = j), List.drop_eq_getElem_cons hj,
      List.getD_eq_getElem cs 0 hj]
  · have htake : List.take i cs = List.take (i - 1) cs ++ [cs[i - 1]] := by
      conv_lhs => rw [(by omega : i = i - 1 + 1)]
      rw [List.take_succ, List.getElem?_eq_getElem hi1]
      rfl
    rw [revSeg, List.getD_eq_getElem cs 0 hi1, List.getD_eq_getElem cs 0 hj, htake,
      List.drop_eq_getElem_cons hj]
    simp only [List.append_assoc, List.singleton_append, List.cons_append, List.nil_append]

/-- What a single 2-opt exchange preserves: the customer multiset, the two
endpoints, the gap between recorded length and recomputed length, and the
recorded length never increases. -/
theorem opt2Step_spec (d : ℕ → ℕ → ℚ) (hsym : ∀ i j, d i j = d j i) {cs : List ℕ}
    {len : ℚ} {fl : Bool} {i j : ℕ} (h1 : 1 ≤ i) (h2 : i + 2 ≤ j) (h3 : j < cs.length) :
    (opt2Step d (cs, len, fl) (i, j)).1.Perm cs ∧
      (opt2Step d (cs, len, fl) (i, j)).1.head? = cs.head? ∧
      (opt2Step d (cs, len, fl) (i, j)).1.getLast? = cs.getLast? ∧
      (opt2Step d (cs, len, fl) (i, j)).2.1 - legsSum d (opt2Step d (cs, len, fl) (i, j)).1
        = len - legsSum d cs ∧
      (opt2Step d (cs, len, fl) (i, j)).2.1 ≤ len := by
  rw [opt2Step]
  by_cases himp : d (cs.getD (i - 1) 0) (cs.getD (j - 1) 0) + d (cs.getD i 0) (cs.getD j 0)
      < d (cs.getD (i - 1) 0) (cs.getD i 0) + d (cs.getD (j - 1) 0) (cs.getD j 0)
  · rw [if_pos himp]
    obtain ⟨hdec, hrev⟩ := revSeg_decomp h1 h2 h3
    set X := cs.take (i - 1) with hX
    set a := cs.getD (i - 1) 0 with ha
    set S := (cs.drop i).take (j - i) with hS
    set b := cs.getD j 0 with hb
    set C := cs.drop (j + 1) with hC
    have hSne : S ≠ [] := seg_ne_nil h2 h3
    have hhead : S.headD 0 = cs.getD i 0 := seg_headD h2 h3
    have hlast : S.getLastD 0 = cs.getD (j - 1) 0 := seg_getLastD h2 h3
    have hsum_old : legsSum d cs
        = legsSum d (X ++ [a]) + (legsSum d (a :: (S ++ [b])) + legsSum d (b :: C)) := by
      conv_lhs => rw [hdec]
      rw [legsSum_append_cons d X a (S ++ b :: C)]
      congr 1
      have : a :: (S ++ b :: C) = (a :: S) ++ b :: C := by simp
      rw [this, legsSum_append_cons d (a :: S) b C]
      simp only [List.cons_append]
    have hsum_new : legsSum d (revSeg cs i j)
        = legsSum d (X ++ [a])
          + (legsSum d (a :: (S.reverse ++ [b])) + legsSum d (b :: C)) := by
      conv_lhs => rw [hrev]
      rw [legsSum_append_cons d X a (S.reverse ++ b :: C)]
      congr 1
      have : a :: (S.reverse ++ b :: C) = (a :: S.reverse) ++ b :: C := by simp
      rw [this, legsSum_append_cons d (a :: S.reverse) b C]
      simp only [List.cons_append]
    have hcore := legsSum_core d hsym a b hSne
    refine ⟨?_, ?_, ?_, ?_, ?_⟩
    · show revSeg cs i j |>.Perm cs
      rw [hrev]
      conv_rhs => rw [hdec]
      exact ((((S.reverse_perm).append_right (b :: C)).cons a).append_left X)
    · show (revSeg cs i j).head? = cs.head?
      rw [hrev]
      conv_rhs => rw [hdec]
      rw [List.head?_append, List.head?_append]
      simp only [List.head?_cons]
    · show (revSeg cs i j).getLast? = cs.getLast?
      rw [hrev]
      conv_rhs => rw [hdec]
      have e1 : X ++ a :: (S.reverse ++ b :: C) = (X ++ a :: S.reverse) ++ b :: C := by simp
      have e2 : X ++ a :: (S ++ b :: C) = (X ++ a :: S) ++ b :: C := by simp
      rw [e1, e2]
      conv_lhs => rw [List.getLast?_append]
      conv_rhs => rw [List.getLast?_append]
      cases hgl : (b :: C).getLast? with
      | none => simp [List.getLast?_eq_none_iff] at hgl
      | some x => rfl
    · show len - (d a (cs.getD i 0) + d (cs.getD (j - 1) 0) b)
          + (d a (cs.getD (j - 1) 0) + d (cs.getD i 0) b) - legsSum d (revSeg cs i j)
          = len - legsSum d cs
      rw [hsum_new, hsum_old, ← hhead, ← hlast]
      linarith [hcore]
    · show len - (d a (cs.getD i 0) + d (cs.getD (j - 1) 0) b)
          + (d a (cs.getD (j - 1) 0) + d (cs.getD i 0) b) ≤ len
      rw [← hhead, ← hlast] at himp ⊢
      linarith [himp]
  · rw [if_neg himp]
    exact ⟨List.Perm.refl cs, rfl, rfl, rfl, le_refl len⟩

/-- Invariant carried through one full 2-opt sweep. -/
theorem opt2Sweep_spec (d : ℕ → ℕ → ℚ) (hsym : ∀ i j, d i j = d j i) (cs : List ℕ)
    (len : ℚ) :
    (opt2Sweep d cs len).1.Perm cs ∧
      (opt2Sweep d cs len).1.head? = cs.head? ∧
      (opt2Sweep d cs len).1.getLast? = cs.getLast? ∧
      (opt2Sweep d cs len).2.1 - legsSum d (opt2Sweep d cs len).1 = len - legsSum d cs ∧
      (opt2Sweep d cs len).2.1 ≤ len := by
  rw [opt2Sweep]
  refine foldl_inv (P := fun st : List ℕ × ℚ × Bool =>
    st.1.Perm cs ∧ st.1.head? = cs.head? ∧ st.1.getLast? = cs.getLast? ∧
      st.2.1 - legsSum d st.1 = len - legsSum d cs ∧ st.2.1 ≤ len) ?_ _
    ⟨List.Perm.refl cs, rfl, rfl, rfl, le_refl len⟩
  rintro ⟨cs', len', fl⟩ ⟨i, j⟩ hmem ⟨hperm, hh, hl, hlen, hle⟩
  obtain ⟨hb1, hb2, hb3⟩ := sweepPairs_bounds hmem
  have hb3' : j < cs'.length := by
    rw [hperm.length_eq]
    exact hb3
  obtain ⟨q1, q2, q3, q4, q5⟩ := opt2Step_spec d hsym hb1 hb2 hb3'
  exact ⟨q1.trans hperm, q2.trans hh, q3.trans hl, by linarith, by linarith⟩

/-- Invariant carried through the `while improved` loop. -/
theorem opt2Loop_spec (d : ℕ → ℕ → ℚ) (hsym : ∀ i j, d i j = d j i) :
    ∀ (fuel : ℕ) (cs : List ℕ) (len : ℚ),
    (opt2Loop d fuel cs len).1.Perm cs ∧
      (opt2Loop d fuel cs len).1.head? = cs.head? ∧
      (opt2Loop d fuel cs len).1.getLast? = cs.getLast? ∧
      (opt2Loop d fuel cs len).2 - legsSum d (opt2Loop d fuel cs len).1
        = len - legsSum d cs ∧
      (opt2Loop d fuel cs len).2 ≤ len := by
  intro fuel
  induction fuel with
  | zero => exact fun cs len => ⟨List.Perm.refl cs, rfl, rfl, rfl, le_refl len⟩
  | succ fuel ih =>
    intro cs len
    rw [opt2Loop]
    obtain ⟨q1, q2, q3, q4, q5⟩ := opt2Sweep_spec d hsym cs len
    by_cases hfl : (opt2Sweep d cs len).2.2
    · rw [if_pos hfl]
      obtain ⟨r1, r2, r3, r4, r5⟩ := ih (opt2Sweep d cs len).1 (opt2Sweep d cs len).2.1
      exact ⟨r1.trans q1, r2.trans q2, r3.trans q3, by linarith, by linarith⟩
    · rw [if_neg hfl]
      exact ⟨q1, q2, q3, q4, q5⟩

/-- Shared 2-opt specification: for a symmetric distance table, `opt2`
permutes the customers, keeps both endpoints, keeps the gap between
recorded and recomputed length, and never increases the recorded
length. -/
theorem opt2_spec (p : Problem) (route : Route) (fuel : ℕ)
    (hsym : ∀ i j, p.dists i j = p.dists j i) :
    (opt2 p route fuel).customers.Perm route.customers ∧
      (opt2 p route fuel).customers.head? = route.customers.head? ∧
      (opt2 p route fuel).customers.getLast? = route.customers.getLast? ∧
      (opt2 p route fuel).length - legsSum p.dists (opt2 p route fuel).customers
        = route.length - legsSum p.dists route.customers ∧
      (opt2 p route fuel).length ≤ route.length ∧
      (opt2 p route fuel).id = route.id ∧ (opt2 p route fuel).reward = route.reward := by
  obtain ⟨q1, q2, q3, q4, q5⟩ :=
    opt2Loop_spec p.dists hsym fuel route.customers route.length
  exact ⟨q1, q2, q3, q4, q5, rfl, rfl⟩

/-! ### Biased-randomized selector: full consumption is a permutation -/

theorem braConsume_perm {α : Type} (draws : ℕ → ℕ) :
    ∀ (fuel k : ℕ) (options : List α), fuel = options.length →
      (braConsume draws fuel k options).Perm options := by
  intro fuel
  induction fuel with
  | zero =>
    intro k options h
    rw [braConsume]
    cases options with
    | nil => exact List.Perm.refl []
    | cons a t => simp at h
  | succ fuel ih =>
    intro k options h
    cases options with
    | nil => simp at h
    | cons a t =>
      rw [braConsume]
      set idx := draws k % (a :: t).length with hidx
      have hlt : idx < (a :: t).length := Nat.mod_lt _ (by simp)
      have hlen : fuel = ((a :: t).eraseIdx idx).length := by
        rw [List.length_eraseIdx, if_pos hlt]
        omega
      have hperm := ih (k + 1) ((a :: t).eraseIdx idx) hlen
      have hget : (a :: t).getD idx a = (a :: t)[idx] := List.getD_eq_getElem _ _ hlt
      have hsplit : (a :: t)[idx] :: (a :: t).eraseIdx idx |>.Perm (a :: t) := by
        conv_rhs => rw [← List.take_append_drop idx (a :: t),
          List.drop_eq_getElem_cons hlt]
        rw [List.eraseIdx_eq_take_drop_succ]
        exact (List.perm_middle).symm
      rw [hget]
      exact (hperm.cons _).trans hsplit

/-- For `0 < beta < 1` the selector succeeds and yields a permutation of
its input. -/
theorem braSelector_perm {α : Type} (val : α → ℚ) {beta : ℚ} (draws : ℕ → ℕ)
    (lst : List α) (h0 : 0 < beta) (h1 : beta < 1) :
    braSelector val beta draws lst
      = some (braSelector val beta draws lst |>.getD []) ∧
      ((braSelector val beta draws lst).getD []).Perm lst := by
  by_cases hemp : lst.isEmpty
  · rw [braSelector, if_pos hemp]
    simp [List.isEmpty_iff.1 hemp]
  · have hcond : ¬(beta = 0 ∨ 1 ≤ beta) := by
      rintro (h | h) <;> linarith
    rw [braSelector, if_neg hemp, if_neg hcond]
    have hfuel : lst.length = (sortDescBy val lst).length := by
      rw [sortDescBy, List.length_insertionSort]
    have hperm := braConsume_perm draws lst.length 0 (sortDescBy val lst) hfuel
    exact ⟨rfl, hperm.trans (List.perm_insertionSort _ lst)⟩

/-! ### The savings merge loop -/

/-- Case analysis for one successful merge-loop iteration: either the
solution is unchanged (a `continue` or a failed guard), or the guarded
merge happened and every guard fact is available. -/
theorem mergeStep_inv {p : Problem} {sol : Solution} {s : Saving} {r : Solution × Bool}
    (h : mergeStep p sol s = some r) :
    r.1 = sol ∨
      ∃ iId jId iroute jroute,
        dlookup s.inode sol.cToR = some iId ∧
        dlookup s.jnode sol.cToR = some jId ∧
        iId ≠ jId ∧
        dlookup iId sol.routes = some iroute ∧
        dlookup jId sol.routes = some jroute ∧
        2 ≤ iroute.customers.length ∧ 2 ≤ jroute.customers.length ∧
        iroute.customers.getD (iroute.customers.length - 2) 0 = s.inode ∧
        jroute.customers.getD 1 0 = s.jnode ∧
        iroute.length - p.dists s.inode (p.n - 1) + jroute.length - p.dists 0 s.jnode
          + p.dists s.inode s.jnode ≤ p.tmax ∧
        r.1 = ⟨dinsert (mergeRoutes p sol.cToR iroute jroute).1.id
            (mergeRoutes p sol.cToR iroute jroute).1 (dpop jId (dpop iId sol.routes)),
          (mergeRoutes p sol.cToR iroute jroute).2⟩ := by
  by_cases hpn : s.inode < p.n ∧ s.jnode < p.n
  case neg =>
    rw [mergeStep, if_neg hpn] at h
    exact absurd h (by simp)
  case pos =>
  cases hci : dlookup s.inode sol.cToR with
  | none =>
    rw [mergeStep, if_pos hpn, hci] at h
    simp at h
    left
    rw [← h]
  | some iId =>
  cases hcj : dlookup s.jnode sol.cToR with
  | none =>
    rw [mergeStep, if_pos hpn, hci, hcj] at h
    simp at h
    left
    rw [← h]
  | some jId =>
  by_cases hij : iId = jId
  case pos =>
    rw [mergeStep, if_pos hpn, hci, hcj] at h
    simp [if_pos hij] at h
    left
    rw [← h]
  case neg =>
  cases hri : dlookup iId sol.routes with
  | none =>
    rw [mergeStep, if_pos hpn, hci, hcj] at h
    simp [if_neg hij, hri] at h
  | some iroute =>
  cases hrj : dlookup jId sol.routes with
  | none =>
    rw [mergeStep, if_pos hpn, hci, hcj] at h
    simp [if_neg hij, hri, hrj] at h
  | some jroute =>
  by_cases hilen : 2 ≤ iroute.customers.length
  case neg =>
    rw [mergeStep, if_pos hpn, hci, hcj] at h
    simp [if_neg hij, hri, hrj, pyNeg2, hilen] at h
  case pos =>
  have hic2 : pyNeg2 iroute.customers
      = some (iroute.customers.getD (iroute.customers.length - 2) 0) := by
    rw [pyNeg2, if_pos hilen]
  by_cases hpos1 : iroute.customers.getD (iroute.customers.length - 2) 0 = s.inode
  all_goals have hpos1' := hpos1
  all_goals rw [List.getD_eq_getElem?_getD] at hpos1'
  case neg =>
    rw [mergeStep, if_pos hpn, hci, hcj] at h
    simp [if_neg hij, hri, hrj, hic2, hpos1'] at h
    left
    rw [← h]
  case pos =>
  by_cases hjlen : 2 ≤ jroute.customers.length
  case neg =>
    rw [mergeStep, if_pos hpn, hci, hcj] at h
    simp [if_neg hij, hri, hrj, hic2, hpos1', pySnd, hjlen] at h
  case pos =>
  have hjc1 : pySnd jroute.customers = some (jroute.customers.getD 1 0) := by
    rw [pySnd, if_pos hjlen]
  by_cases hpos2 : jroute.customers.getD 1 0 = s.jnode
  all_goals have hpos2' := hpos2
  all_goals rw [List.getD_eq_getElem?_getD] at hpos2'
  case neg =>
    rw [mergeStep, if_pos hpn, hci, hcj] at h
    simp [if_neg hij, hri, hrj, hic2, hpos1', hjc1, hpos2'] at h
    left
    rw [← h]
  case pos =>
  by_cases hfit : iroute.length - p.dists s.inode (p.n - 1) + jroute.length
      - p.dists 0 s.jnode + p.dists s.inode s.jnode ≤ p.tmax
  case neg =>
    rw [mergeStep, if_pos hpn, hci, hcj] at h
    simp [if_neg hij, hri, hrj, hic2, hpos1', hjc1, hpos2', if_neg hfit] at h
    left
    rw [← h]
  case pos =>
    have hd1 : dpopE iId sol.routes = some (dpop iId sol.routes) := by
      rw [dpopE, if_pos (by rw [hri]; rfl)]
    have hd2 : dpopE jId (dpop iId sol.routes) = some (dpop jId (dpop iId sol.routes)) := by
      rw [dpopE, if_pos (by rw [dlookup_dpop_ne (fun hq => hij hq.symm), hrj]; rfl)]
    rw [mergeStep, if_pos hpn, hci, hcj] at h
    simp [if_neg hij, hri, hrj, hic2, hpos1', hjc1, hpos2', if_pos hfit,
      hd1, hd2] at h
    right
    exact ⟨iId, jId, iroute, jroute, rfl, rfl, hij, hri, hrj, hilen, hjlen, hpos1, hpos2,
      hfit, by rw [← h]⟩

/-- Every route value of the dict fits in the budget. -/
def AllShort (p : Problem) (d : List (ℕ × Route)) : Prop :=
  ∀ r ∈ dvalues d, r.length ≤ p.tmax

theorem mergeRoutes_fst_length (p : Problem) (cToR : List (ℕ × ℕ)) (iroute jroute : Route) :
    (mergeRoutes p cToR iroute jroute).1.length
      = iroute.length
        - p.dists (iroute.customers.getD (iroute.customers.length - 2) 0) (p.n - 1)
        + p.dists (iroute.customers.getD (iroute.customers.length - 2) 0)
            (jroute.customers.getD 1 0)
        + jroute.length - p.dists 0 (jroute.customers.getD 1 0) := rfl

theorem mergeStep_allShort {p : Problem} {sol : Solution} {s : Saving}
    {r : Solution × Bool} (h : mergeStep p sol s = some r)
    (hall : AllShort p sol.routes) : AllShort p r.1.routes := by
  rcases mergeStep_inv h with heq | ⟨iId, jId, iroute, jroute, _, _, _, hri, hrj, _, _,
    hpos1, hpos2, hfit, heq⟩
  · rw [heq]; exact hall
  · rw [heq]
    intro rt hrt
    obtain ⟨k, hk⟩ := mem_dvalues.1 hrt
    rcases mem_dinsert hk with hmr | ⟨hmem, _⟩
    · have : rt = (mergeRoutes p sol.cToR iroute jroute).1 := congrArg Prod.snd hmr
      rw [this, mergeRoutes_fst_length, hpos1, hpos2]
      linarith [hfit]
    · have : (k, rt) ∈ sol.routes := (mem_dpop.1 (mem_dpop.1 hmem).1).1
      exact hall rt (mem_dvalues.2 ⟨k, this⟩)

theorem mergeLoop_allShort (p : Problem) :
    ∀ (savings : List Saving) (sol sol' : Solution),
      mergeLoop p savings sol = some sol' → AllShort p sol.routes →
      AllShort p sol'.routes := by
  intro savings
  induction savings with
  | nil =>
    intro sol sol' h hall
    rw [mergeLoop] at h
    cases h
    exact hall
  | cons s rest ih =>
    intro sol sol' h hall
    rw [mergeLoop] at h
    cases hstep : mergeStep p sol s with
    | none => rw [hstep] at h; exact absurd h (by simp)
    | some r =>
      rw [hstep] at h
      simp only [Option.bind_eq_bind, Option.some_bind] at h
      have hr := mergeStep_allShort hstep hall
      by_cases hbrk : r.2 ∧ r.1.routes.length ≤ p.nTrucks
      · rw [if_pos hbrk] at h
        cases h
        exact hr
      · rw [if_neg hbrk] at h
        exact ih r.1 sol' h hr

theorem initSolution_allShort (p : Problem) : AllShort p (initSolution p).routes := by
  rw [initSolution]
  have : ∀ (ids : List ℕ) (acc : List (ℕ × Route) × List (ℕ × ℕ) × ℕ),
      AllShort p acc.1 → AllShort p (ids.foldl
        (fun acc id =>
          if id = 0 ∨ id = p.n - 1 then acc
          else
            let t := p.dists 0 id + p.dists id (p.n - 1)
            if t ≤ p.tmax then
              (dinsert acc.2.2 ⟨acc.2.2, [0, id, p.n - 1], t, p.reward id⟩ acc.1,
               dinsert id acc.2.2 acc.2.1, acc.2.2 + 1)
            else acc) acc).1 := by
    intro ids
    induction ids with
    | nil => intro acc hacc; exact hacc
    | cons id rest ih =>
      intro acc hacc
      rw [List.foldl_cons]
      apply ih
      by_cases h0 : id = 0 ∨ id = p.n - 1
      · rw [if_pos h0]; exact hacc
      · rw [if_neg h0]
        by_cases ht : p.dists 0 id + p.dists id (p.n - 1) ≤ p.tmax
        · rw [if_pos ht]
          intro rt hrt
          obtain ⟨k, hk⟩ := mem_dvalues.1 hrt
          rcases mem_dinsert hk with hmr | ⟨hmem, _⟩
          · injection hmr with h1 h2
            rw [h2]
            exact ht
          · exact hacc rt (mem_dvalues.2 ⟨k, hmem⟩)
        · rw [if_neg ht]; exact hacc
  exact this (List.range p.n) ([], [], 0) (by intro rt hrt; simp [dvalues] at hrt)

theorem mem_dvalues_foldl_routes (top : List Route) :
    ∀ (acc : List (ℕ × Route)) (r : Route),
      r ∈ dvalues (top.foldl (fun d rr => dinsert rr.id rr d) acc) →
      r ∈ dvalues acc ∨ r ∈ top := by
  induction top with
  | nil => intro acc r h; exact Or.inl h
  | cons rr rest ih =>
    intro acc r h
    rw [List.foldl_cons] at h
    rcases ih _ r h with hacc | htop
    · obtain ⟨k, hk⟩ := mem_dvalues.1 hacc
      rcases mem_dinsert hk with hmr | ⟨hmem, _⟩
      · right
        injection hmr with h1 h2
        rw [h2]
        exact List.mem_cons_self _ _
      · exact Or.inl (mem_dvalues.2 ⟨k, hmem⟩)
    · exact Or.inr (List.mem_cons_of_mem _ htop)

theorem length_foldl_dinsert_routes (top : List Route) :
    ∀ (acc : List (ℕ × Route)),
      (top.foldl (fun d rr => dinsert rr.id rr d) acc).length ≤ acc.length + top.length := by
  induction top with
  | nil => intro acc; simp
  | cons rr rest ih =>
    intro acc
    rw [List.foldl_cons]
    calc (rest.foldl (fun d rr => dinsert rr.id rr d) (dinsert rr.id rr acc)).length
        ≤ (dinsert rr.id rr acc).length + rest.length := ih _
      _ ≤ acc.length + 1 + rest.length := by
          have := length_dinsert_le rr.id rr acc
          omega
      _ = acc.length + (rr :: rest).length := by simp; omega

theorem finalize_allShort {p : Problem} {sol : Solution} (hall : AllShort p sol.routes) :
    AllShort p (finalize p sol).routes := by
  intro rt hrt
  rcases mem_dvalues_foldl_routes _ _ _ hrt with habs | htop
  · simp [dvalues] at habs
  · have hsorted : rt ∈ sortDescBy (fun r : Route => (r.reward : ℚ)) (dvalues sol.routes) :=
      List.mem_of_mem_take htop
    have : rt ∈ dvalues sol.routes :=
      (List.perm_insertionSort _ _).mem_iff.1 hsorted
    exact hall rt this

theorem finalize_count (p : Problem) (sol : Solution) :
    (finalize p sol).routes.length ≤ p.nTrucks := by
  calc (finalize p sol).routes.length
      ≤ ([] : List (ℕ × Route)).length
        + ((sortDescBy (fun r : Route => (r.reward : ℚ)) (dvalues sol.routes)).take
            p.nTrucks).length := length_foldl_dinsert_routes _ _
    _ ≤ p.nTrucks := by
        simp [List.length_take]

/-- Unfolding of a successful `savings_heuristic` run into its three
stages. -/
theorem savingsHeuristic_eq {p : Problem} {alpha beta : ℚ} {draws : ℕ → ℕ}
    {seed : Option Solution} {sol : Solution}
    (h : savingsHeuristic p alpha beta draws seed = some sol) :
    ∃ order sol1,
      braSelector Saving.value beta draws (generateSavings p alpha) = some order ∧
      mergeLoop p order (match seed with | none => initSolution p | some s => s)
        = some sol1 ∧
      sol = finalize p sol1 := by
  unfold savingsHeuristic at h
  set sol0 := (match seed with | none => initSolution p | some s => s) with hsol0
  cases hord : braSelector Saving.value beta draws (generateSavings p alpha) with
  | none => rw [hord] at h; simp at h
  | some order =>
    rw [hord] at h
    simp only [Option.bind_eq_bind, Option.some_bind] at h
    cases hml : mergeLoop p order sol0 with
    | none => rw [hml] at h; simp at h
    | some sol1 =>
      rw [hml] at h
      simp only [Option.bind_eq_bind, Option.some_bind, Option.some.injEq] at h
      exact ⟨order, sol1, rfl, hml, h.symm⟩

/-! ### Route well-formedness and the reverse-index invariant -/

/-- A well-formed route: at least two customers, starting at the source,
ending at the sink, with an interior of distinct non-depot customers
(spec §3, Route). -/
def WFRoute (p : Problem) (r : Route) : Prop :=
  2 ≤ r.customers.length ∧ r.customers.head? = some 0 ∧
    r.customers.getLast? = some (p.n - 1) ∧ (interiorL r.customers).Nodup ∧
    ∀ c ∈ interiorL r.customers, c ≠ 0 ∧ c ≠ p.n - 1

/-- The three-part invariant of a routes dict: unique keys, each route
keyed by its own id and well-formed, and interiors of routes at distinct
keys disjoint. -/
def RoutesInv (p : Problem) (d : List (ℕ × Route)) : Prop :=
  NodupKeys d ∧ (∀ kv ∈ d, kv.2.id = kv.1 ∧ WFRoute p kv.2) ∧
    ∀ kv1 ∈ d, ∀ kv2 ∈ d, kv1.1 ≠ kv2.1 →
      ∀ c ∈ interiorL kv1.2.customers, c ∉ interiorL kv2.2.customers

/-- The reverse index exactly mirrors route membership: every binding
points at a route whose interior holds the customer, and every interior
customer of every route is bound to that route's key. -/
def Mirrors (sol : Solution) : Prop :=
  (∀ kv ∈ sol.cToR, ∃ rv ∈ sol.routes, rv.1 = kv.2 ∧ kv.1 ∈ interiorL rv.2.customers) ∧
    ∀ rv ∈ sol.routes, ∀ c ∈ interiorL rv.2.customers, dlookup c sol.cToR = some rv.1

/-- Every non-depot customer appears in the interior of at most one
route. -/
def AtMostOne (sol : Solution) : Prop :=
  ∀ rv1 ∈ sol.routes, ∀ rv2 ∈ sol.routes, ∀ c,
    c ∈ interiorL rv1.2.customers → c ∈ interiorL rv2.2.customers → rv1 = rv2

theorem interiorL_structured (a b : ℕ) (m : List ℕ) :
    interiorL (a :: m ++ [b]) = m := by
  simp [interiorL, List.dropLast_concat]

theorem dropLast_concat_getLastD :
    ∀ (l : List ℕ), l ≠ [] → l.dropLast ++ [l.getLastD 0] = l
  | [_], _ => rfl
  | x :: y :: t, _ => by
    have ih := dropLast_concat_getLastD (y :: t) (by simp)
    simp only [List.dropLast_cons₂, List.getLastD_cons, List.cons_append]
    rw [show (y :: t).getLastD 0 = t.getLastD y by rw [List.getLastD_cons]] at ih
    rw [ih]

theorem list_decomp {l : List ℕ} {s t : ℕ} (hlen : 2 ≤ l.length)
    (hhead : l.head? = some s) (hlast : l.getLast? = some t) :
    l = s :: interiorL l ++ [t] := by
  cases l with
  | nil => simp at hlen
  | cons a u =>
    simp only [List.head?_cons, Option.some.injEq] at hhead
    have hune : u ≠ [] := by
      intro he
      rw [he] at hlen
      simp at hlen
    have h1 : interiorL (a :: u) = u.dropLast := rfl
    have h2 : (a :: u).getLast? = u.getLast? := by
      cases u with
      | nil => exact absurd rfl hune
      | cons b v => exact List.getLast?_cons_cons
    rw [h2] at hlast
    have h3 : u.getLastD 0 = t := by
      rw [List.getLastD_eq_getLast?, hlast]
      rfl
    rw [h1, hhead, ← h3, List.cons_append, dropLast_concat_getLastD u hune]

theorem wf_decomp {p : Problem} {r : Route} (h : WFRoute p r) :
    r.customers = 0 :: interiorL r.customers ++ [p.n - 1] :=
  list_decomp h.1 h.2.1 h.2.2.1

/-- Plain-list route invariants, used for the kept top routes. -/
def RListInv (p : Problem) (l : List Route) : Prop :=
  (l.map Route.id).Nodup ∧ (∀ r ∈ l, WFRoute p r) ∧
    List.Pairwise
      (fun r1 r2 : Route => ∀ c ∈ interiorL r1.customers, c ∉ interiorL r2.customers) l

theorem dkeys_eq_map_id {d : List (ℕ × Route)}
    (hkc : ∀ kv ∈ d, kv.2.id = kv.1) : dkeys d = (dvalues d).map Route.id := by
  rw [dkeys, dvalues, List.map_map]
  exact (List.map_congr_left fun kv hkv => ((hkc kv hkv).symm : kv.1 = (Route.id ∘ Prod.snd) kv))

theorem routesInv_rlist {p : Problem} {d : List (ℕ × Route)} (h : RoutesInv p d) :
    RListInv p (dvalues d) := by
  obtain ⟨hnd, hkc, hdisj⟩ := h
  refine ⟨?_, ?_, ?_⟩
  · rw [← dkeys_eq_map_id (fun kv hkv => (hkc kv hkv).1)]
    exact hnd
  · intro r hr
    obtain ⟨k, hk⟩ := mem_dvalues.1 hr
    exact (hkc _ hk).2
  · have hne : List.Pairwise (fun kv1 kv2 : ℕ × Route => kv1.1 ≠ kv2.1) d :=
      List.pairwise_map.1 hnd
    have hp : List.Pairwise (fun kv1 kv2 : ℕ × Route =>
        ∀ c ∈ interiorL kv1.2.customers, c ∉ interiorL kv2.2.customers) d :=
      hne.imp_of_mem fun ha hb hne' => hdisj _ ha _ hb hne'
    exact List.pairwise_map.2 hp

theorem rlistInv_perm {p : Problem} {l1 l2 : List Route} (hperm : l1.Perm l2)
    (h : RListInv p l2) : RListInv p l1 := by
  obtain ⟨hnd, hwf, hp⟩ := h
  refine ⟨?_, ?_, ?_⟩
  · exact ((hperm.map Route.id).nodup_iff).2 hnd
  · intro r hr
    exact hwf r (hperm.mem_iff.1 hr)
  · refine (hperm.pairwise_iff ?_).2 hp
    intro x y hxy c hc hcy
    exact hxy c hcy hc

theorem rlistInv_take {p : Problem} {l : List Route} (n : ℕ) (h : RListInv p l) :
    RListInv p (l.take n) := by
  obtain ⟨hnd, hwf, hp⟩ := h
  have hs : (l.take n).Sublist l := List.take_sublist n l
  exact ⟨(hs.map Route.id).nodup hnd, fun r hr => hwf r (hs.mem hr), hp.sublist hs⟩

theorem mergeStep_routesInv {p : Problem} {sol : Solution} {s : Saving}
    {r : Solution × Bool} (h : mergeStep p sol s = some r)
    (hinv : RoutesInv p sol.routes) : RoutesInv p r.1.routes := by
  rcases mergeStep_inv h with heq | ⟨iId, jId, iroute, jroute, _, _, hij, hri, hrj, _, _,
    _, _, _, heq⟩
  · rw [heq]
    exact hinv
  · obtain ⟨hnd, hkc, hdisj⟩ := hinv
    have hmemI : (iId, iroute) ∈ sol.routes := dlookup_mem hri
    have hmemJ : (jId, jroute) ∈ sol.routes := dlookup_mem hrj
    have hidI : iroute.id = iId := (hkc _ hmemI).1
    have hwfI : WFRoute p iroute := (hkc _ hmemI).2
    have hwfJ : WFRoute p jroute := (hkc _ hmemJ).2
    have hdisjIJ : ∀ c ∈ interiorL iroute.customers, c ∉ interiorL jroute.customers :=
      hdisj _ hmemI _ hmemJ hij
    have hcust : (mergeRoutes p sol.cToR iroute jroute).1.customers
        = 0 :: (interiorL iroute.customers ++ interiorL jroute.customers) ++ [p.n - 1] := by
      show iroute.customers.dropLast ++ jroute.customers.drop 1 = _
      conv_lhs => rw [wf_decomp hwfI, wf_decomp hwfJ]
      rw [show ((0 : ℕ) :: interiorL iroute.customers ++ [p.n - 1])
          = (((0 : ℕ) :: interiorL iroute.customers) ++ [p.n - 1]) from rfl,
        List.dropLast_concat]
      simp
    have hmid : (mergeRoutes p sol.cToR iroute jroute).1.id = iId := by
      show iroute.id = iId
      exact hidI
    have hwfM : WFRoute p (mergeRoutes p sol.cToR iroute jroute).1 := by
      refine ⟨?_, ?_, ?_, ?_, ?_⟩
      · rw [hcust]
        simp
        omega
      · rw [hcust]
        rfl
      · rw [hcust]
        show (((0 : ℕ) :: (interiorL iroute.customers ++ interiorL jroute.customers))
          ++ [p.n - 1]).getLast? = some (p.n - 1)
        exact List.getLast?_concat _
      · rw [hcust, interiorL_structured]
        rw [List.nodup_append]
        exact ⟨hwfI.2.2.2.1, hwfJ.2.2.2.1, hdisjIJ⟩
      · rw [hcust, interiorL_structured]
        intro c hc
        rcases List.mem_append.1 hc with hcI | hcJ
        · exact hwfI.2.2.2.2 c hcI
        · exact hwfJ.2.2.2.2 c hcJ
    have hmem_new : ∀ kv : ℕ × Route, kv ∈ r.1.routes →
        kv = (iId, (mergeRoutes p sol.cToR iroute jroute).1)
          ∨ (kv ∈ sol.routes ∧ kv.1 ≠ iId ∧ kv.1 ≠ jId) := by
      intro kv hkv
      rw [heq] at hkv
      rcases mem_dinsert hkv with hkv1 | ⟨hkv2, hkne⟩
      · left
        rw [hkv1, hmid]
      · right
        rw [hmid] at hkne
        obtain ⟨hkv3, hkj⟩ := mem_dpop.1 hkv2
        obtain ⟨hkv4, hki⟩ := mem_dpop.1 hkv3
        exact ⟨hkv4, hki, hkj⟩
    refine ⟨?_, ?_, ?_⟩
    · rw [heq]
      exact nodupKeys_dinsert (nodupKeys_dpop (nodupKeys_dpop hnd))
    · intro kv hkv
      rcases hmem_new kv hkv with hkv1 | ⟨hkv2, _, _⟩
      · rw [hkv1]
        exact ⟨hmid, hwfM⟩
      · exact hkc _ hkv2
    · intro kv1 hkv1 kv2 hkv2 hne c hc
      rcases hmem_new kv1 hkv1 with he1 | ⟨hm1, hi1, hj1⟩ <;>
        rcases hmem_new kv2 hkv2 with he2 | ⟨hm2, hi2, hj2⟩
      · rw [he1, he2] at hne
        exact absurd rfl hne
      · rw [he1] at hc
        simp only [hcust, interiorL_structured] at hc
        rw [he1] at hne
        rcases List.mem_append.1 hc with hcI | hcJ
        · exact hdisj _ hmemI _ hm2 (by simpa using hne.symm ∘ Eq.symm ∘ id) c hcI
        · exact hdisj _ hmemJ _ hm2 (fun hq => hj2 hq.symm) c hcJ
      · rw [he2]
        simp only [hcust, interiorL_structured]
        intro hcm
        rcases List.mem_append.1 hcm with hcI | hcJ
        · exact hdisj _ hmemI _ hm1 (fun hq => hi1 hq.symm) c hcI hc
        · exact hdisj _ hmemJ _ hm1 (fun hq => hj1 hq.symm) c hcJ hc
      · exact hdisj _ hm1 _ hm2 hne c hc

theorem mergeLoop_routesInv (p : Problem) :
    ∀ (savings : List Saving) (sol sol' : Solution),
      mergeLoop p savings sol = some sol' → RoutesInv p sol.routes →
      RoutesInv p sol'.routes := by
  intro savings
  induction savings with
  | nil =>
    intro sol sol' h hinv
    rw [mergeLoop] at h
    cases h
    exact hinv
  | cons s rest ih =>
    intro sol sol' h hinv
    rw [mergeLoop] at h
    cases hstep : mergeStep p sol s with
    | none =>
      rw [hstep] at h
      exact absurd h (by simp)
    | some r =>
      rw [hstep] at h
      simp only [Option.bind_eq_bind, Option.some_bind] at h
      have hr := mergeStep_routesInv hstep hinv
      by_cases hbrk : r.2 ∧ r.1.routes.length ≤ p.nTrucks
      · rw [if_pos hbrk] at h
        cases h
        exact hr
      · rw [if_neg hbrk] at h
        exact ih r.1 sol' h hr

theorem initSolution_routesInv (p : Problem) : RoutesInv p (initSolution p).routes := by
  rw [initSolution]
  have main : ∀ (ids : List ℕ), ids.Nodup →
      ∀ (acc : List (ℕ × Route) × List (ℕ × ℕ) × ℕ),
      RoutesInv p acc.1 → (∀ k ∈ dkeys acc.1, k < acc.2.2) →
      (∀ kv ∈ acc.1, ∀ c ∈ interiorL kv.2.customers, c ∉ ids) →
      RoutesInv p (ids.foldl
        (fun acc id =>
          if id = 0 ∨ id = p.n - 1 then acc
          else
            let t := p.dists 0 id + p.dists id (p.n - 1)
            if t ≤ p.tmax then
              (dinsert acc.2.2 ⟨acc.2.2, [0, id, p.n - 1], t, p.reward id⟩ acc.1,
               dinsert id acc.2.2 acc.2.1, acc.2.2 + 1)
            else acc) acc).1 := by
    intro ids
    induction ids with
    | nil =>
      intro _ acc hacc _ _
      exact hacc
    | cons id rest ih =>
      intro hnd acc hacc hkb hfresh
      rw [List.foldl_cons]
      rw [List.nodup_cons] at hnd
      by_cases h0 : id = 0 ∨ id = p.n - 1
      · rw [if_pos h0]
        exact ih hnd.2 acc hacc hkb
          (fun kv hkv c hc => fun hmem => hfresh kv hkv c hc (List.mem_cons_of_mem _ hmem))
      · rw [if_neg h0]
        by_cases ht : p.dists 0 id + p.dists id (p.n - 1) ≤ p.tmax
        · rw [if_pos ht]
          push_neg at h0
          set nr : Route := ⟨acc.2.2, [0, id, p.n - 1],
            p.dists 0 id + p.dists id (p.n - 1), p.reward id⟩ with hnr
          have hintr : interiorL nr.customers = [id] := by
            show interiorL [0, id, p.n - 1] = [id]
            exact interiorL_structured 0 (p.n - 1) [id]
          have hmem_new : ∀ kv : ℕ × Route, kv ∈ dinsert acc.2.2 nr acc.1 →
              kv = (acc.2.2, nr) ∨ (kv ∈ acc.1 ∧ kv.1 ≠ acc.2.2) :=
            fun kv hkv => mem_dinsert hkv
          have hwf : WFRoute p nr := by
            refine ⟨by simp, rfl, ?_, by rw [hintr]; simp, ?_⟩
            · show ([0, id] ++ [p.n - 1] : List ℕ).getLast? = some (p.n - 1)
              exact List.getLast?_concat _
            · rw [hintr]
              intro c hc
              rw [List.mem_singleton] at hc
              rw [hc]
              exact h0
          have hinv' : RoutesInv p (dinsert acc.2.2 nr acc.1) := by
            obtain ⟨hnd', hkc', hdisj'⟩ := hacc
            refine ⟨nodupKeys_dinsert hnd', ?_, ?_⟩
            · intro kv hkv
              rcases hmem_new kv hkv with he | ⟨hm, _⟩
              · rw [he]
                exact ⟨rfl, hwf⟩
              · exact hkc' _ hm
            · intro kv1 hkv1 kv2 hkv2 hne c hc
              rcases hmem_new kv1 hkv1 with he1 | ⟨hm1, _⟩ <;>
                rcases hmem_new kv2 hkv2 with he2 | ⟨hm2, _⟩
              · rw [he1, he2] at hne
                exact absurd rfl hne
              · rw [he1] at hc
                simp only [hintr, List.mem_singleton] at hc
                rw [hc]
                intro hmem
                exact hfresh _ hm2 id hmem (List.mem_cons_self _ _)
              · rw [he2]
                simp only [hintr, List.mem_singleton]
                intro hcid
                rw [hcid] at hc
                exact hfresh _ hm1 id hc (List.mem_cons_self _ _)
              · exact hdisj' _ hm1 _ hm2 hne c hc
          refine ih hnd.2 _ hinv' ?_ ?_
          · intro k hk
            show k < acc.2.2 + 1
            by_cases hknew : k = acc.2.2
            · omega
            · have : k ∈ dkeys acc.1 := by
                by_cases hmemk : acc.2.2 ∈ dkeys acc.1
                · rw [dkeys_dinsert_of_mem hmemk] at hk
                  exact hk
                · rw [dkeys_dinsert_of_not_mem hmemk] at hk
                  rcases List.mem_append.1 hk with hk1 | hk1
                  · exact hk1
                  · rw [List.mem_singleton] at hk1
                    exact absurd hk1 hknew
              have := hkb k this
              omega
          · intro kv hkv c hc hmem
            rcases hmem_new kv hkv with he | ⟨hm, _⟩
            · rw [he] at hc
              simp only [hintr, List.mem_singleton] at hc
              rw [hc] at hmem
              exact hnd.1 hmem
            · exact hfresh _ hm c hc (List.mem_cons_of_mem _ hmem)
        · rw [if_neg ht]
          exact ih hnd.2 acc hacc hkb
            (fun kv hkv c hc hmem => hfresh kv hkv c hc (List.mem_cons_of_mem _ hmem))
  exact main (List.range p.n) (List.nodup_range p.n) ([], [], 0)
    ⟨by simp [NodupKeys, dkeys], by simp, by simp⟩ (by simp [dkeys]) (by simp)

/-! ### The rebuilt reverse index of `finalize` mirrors the kept routes -/

theorem foldl_dinsert_eq_append {β : Type} :
    ∀ (l : List (ℕ × β)) (acc : List (ℕ × β)),
      (∀ k ∈ dkeys acc, k ∉ l.map Prod.fst) → (l.map Prod.fst).Nodup →
      l.foldl (fun d kv => dinsert kv.1 kv.2 d) acc = acc ++ l := by
  intro l
  induction l with
  | nil =>
    intro acc _ _
    simp
  | cons kv t ih =>
    intro acc hfr hnd
    rw [List.foldl_cons]
    have hknot : kv.1 ∉ dkeys acc := fun hmem => hfr kv.1 hmem (by simp)
    rw [show dinsert kv.1 kv.2 acc = acc ++ [kv] by rw [dinsert, if_neg hknot]]
    rw [List.map_cons, List.nodup_cons] at hnd
    have hfr' : ∀ k ∈ dkeys (acc ++ [kv]), k ∉ t.map Prod.fst := by
      intro k hk
      rw [dkeys, List.map_append] at hk
      rcases List.mem_append.1 hk with hk1 | hk1
      · intro hmem
        exact hfr k hk1 (by simp [hmem])
      · simp at hk1
        rw [hk1]
        exact hnd.1
    rw [ih (acc ++ [kv]) hfr' hnd.2]
    simp

theorem foldl_nested_flatMap {α γ δ : Type} (f : δ → γ → δ) (g : α → List γ) :
    ∀ (l : List α) (init : δ),
      l.foldl (fun acc x => (g x).foldl f acc) init = (l.flatMap g).foldl f init := by
  intro l
  induction l with
  | nil =>
    intro init
    simp
  | cons x t ih =>
    intro init
    rw [List.foldl_cons, List.flatMap_cons, List.foldl_append, ih]

theorem filter_nondepot (p : Problem) (I : List ℕ)
    (hI : ∀ c ∈ I, c ≠ 0 ∧ c ≠ p.n - 1) :
    (((0 : ℕ) :: I ++ [p.n - 1]).filter fun c => ¬(c = 0 ∨ c = p.n - 1)) = I := by
  simp only [List.filter_cons, List.filter_append, List.filter_nil]
  simp only [decide_not]
  norm_num
  exact hI

theorem nodup_flatMap_interiors {p : Problem} :
    ∀ {l : List Route}, RListInv p l →
      (l.flatMap fun r => interiorL r.customers).Nodup := by
  intro l
  induction l with
  | nil =>
    intro _
    simp
  | cons r t ih =>
    intro h
    obtain ⟨hnd, hwf, hp⟩ := h
    rw [List.map_cons, List.nodup_cons] at hnd
    rw [List.flatMap_cons, List.nodup_append]
    refine ⟨(hwf r (List.mem_cons_self _ _)).2.2.2.1,
      ih ⟨hnd.2, fun r' hr' => hwf r' (List.mem_cons_of_mem _ hr'),
        (List.pairwise_cons.1 hp).2⟩, ?_⟩
    intro a ha hmem
    obtain ⟨r', hr', ha'⟩ := List.mem_flatMap.1 hmem
    exact (List.pairwise_cons.1 hp).1 r' hr' a ha ha'

theorem dlookup_first {β : Type} :
    ∀ {l : List (ℕ × β)} {k : ℕ} {v : β},
      (k, v) ∈ l → (∀ v', (k, v') ∈ l → v' = v) → dlookup k l = some v := by
  intro l
  induction l with
  | nil =>
    intro k v h _
    simp at h
  | cons kv t ih =>
    intro k v hm hu
    rw [dlookup_cons]
    by_cases hk : kv.1 = k
    · rw [if_pos hk]
      have hmem : (k, kv.2) ∈ kv :: t := by
        rw [show (k, kv.2) = kv by rw [← hk]]
        exact List.mem_cons_self _ _
      rw [hu kv.2 hmem]
    · rw [if_neg hk]
      apply ih
      · rcases List.mem_cons.1 hm with he | hm2
        · exact absurd (congrArg Prod.fst he.symm) hk
        · exact hm2
      · exact fun v' hv' => hu v' (List.mem_cons_of_mem _ hv')

theorem finalize_routes_eq {p : Problem} {sol : Solution}
    (hids : ((topRoutes p sol).map Route.id).Nodup) :
    (finalize p sol).routes = (topRoutes p sol).map fun r => (r.id, r) := by
  show (topRoutes p sol).foldl (fun d r => dinsert r.id r d) [] = _
  have hconv : ((topRoutes p sol).map fun r : Route => (r.id, r)).foldl
      (fun d kv => dinsert kv.1 kv.2 d) ([] : List (ℕ × Route))
      = (topRoutes p sol).foldl (fun d r => dinsert r.id r d) [] := by
    rw [List.foldl_map]
  rw [← hconv]
  rw [foldl_dinsert_eq_append]
  · simp
  · simp [dkeys]
  · rw [List.map_map]
    exact hids

theorem finalize_cToR_eq {p : Problem} {sol : Solution}
    (hinv : RListInv p (topRoutes p sol)) :
    (finalize p sol).cToR
      = (topRoutes p sol).flatMap fun r =>
          (interiorL r.customers).map fun c => (c, r.id) := by
  show (topRoutes p sol).foldl (fun d r =>
      (r.customers.filter fun c => ¬(c = 0 ∨ c = p.n - 1)).foldl
        (fun d' c => dinsert c r.id d') d) [] = _
  have hstep : ∀ (r : Route), r ∈ topRoutes p sol →
      ∀ (d : List (ℕ × ℕ)),
      (r.customers.filter fun c => ¬(c = 0 ∨ c = p.n - 1)).foldl
        (fun d' c => dinsert c r.id d') d
      = (((interiorL r.customers).map fun c => (c, r.id)).foldl
          (fun d' kv => dinsert kv.1 kv.2 d') d) := by
    intro r hr d
    have hwf := hinv.2.1 r hr
    have hfil : (r.customers.filter fun c => ¬(c = 0 ∨ c = p.n - 1))
        = interiorL r.customers := by
      conv_lhs => rw [wf_decomp hwf]
      exact filter_nondepot p _ hwf.2.2.2.2
    rw [hfil, List.foldl_map]
  have hcong : (topRoutes p sol).foldl (fun d r =>
      (r.customers.filter fun c => ¬(c = 0 ∨ c = p.n - 1)).foldl
        (fun d' c => dinsert c r.id d') d) []
      = (topRoutes p sol).foldl (fun d r =>
          (((interiorL r.customers).map fun c => (c, r.id)).foldl
            (fun d' kv => dinsert kv.1 kv.2 d') d)) [] := by
    have : ∀ (l : List Route), (∀ r ∈ l, r ∈ topRoutes p sol) →
        ∀ (init : List (ℕ × ℕ)),
        l.foldl (fun d r =>
          (r.customers.filter fun c => ¬(c = 0 ∨ c = p.n - 1)).foldl
            (fun d' c => dinsert c r.id d') d) init
        = l.foldl (fun d r =>
            (((interiorL r.customers).map fun c => (c, r.id)).foldl
              (fun d' kv => dinsert kv.1 kv.2 d') d)) init := by
      intro l
      induction l with
      | nil => intro _ init; rfl
      | cons r t ihl =>
        intro hsub init
        rw [List.foldl_cons, List.foldl_cons,
          hstep r (hsub r (List.mem_cons_self _ _)) init]
        exact ihl (fun r' hr' => hsub r' (List.mem_cons_of_mem _ hr')) _
    exact this _ (fun r hr => hr) []
  rw [hcong, foldl_nested_flatMap]
  rw [foldl_dinsert_eq_append]
  · simp
  · simp [dkeys]
  · rw [List.map_flatMap]
    have : ((topRoutes p sol).flatMap fun r =>
        ((interiorL r.customers).map fun c => (c, r.id)).map Prod.fst)
        = (topRoutes p sol).flatMap fun r => interiorL r.customers := by
      apply List.flatMap_congr
      intro r _
      rw [List.map_map]
      exact List.map_id' _
    rw [this]
    exact nodup_flatMap_interiors hinv

/-- After `finalize`, the reverse index mirrors the kept routes exactly and
every customer is interior to at most one kept route. -/
theorem finalize_props {p : Problem} {sol : Solution} (hinv : RoutesInv p sol.routes) :
    Mirrors (finalize p sol) ∧ AtMostOne (finalize p sol) := by
  have htop : RListInv p (topRoutes p sol) :=
    rlistInv_take _ (rlistInv_perm (List.perm_insertionSort _ _)
      (routesInv_rlist hinv))
  have hroutes := finalize_routes_eq htop.1
  have hctor := finalize_cToR_eq htop
  have hsymdisj : Symmetric (fun r1 r2 : Route =>
      ∀ c ∈ interiorL r1.customers, c ∉ interiorL r2.customers) := by
    intro x y hxy c hc hcy
    exact hxy c hcy hc
  constructor
  · constructor
    · intro kv hkv
      rw [hctor] at hkv
      obtain ⟨r, hr, hkv'⟩ := List.mem_flatMap.1 hkv
      obtain ⟨c, hc, he⟩ := List.mem_map.1 hkv'
      refine ⟨(r.id, r), ?_, ?_, ?_⟩
      · rw [hroutes]
        exact List.mem_map.2 ⟨r, hr, rfl⟩
      · rw [← he]
      · rw [← he]
        exact hc
    · intro rv hrv c hc
      rw [hroutes] at hrv
      obtain ⟨r, hr, he⟩ := List.mem_map.1 hrv
      rw [← he] at hc ⊢
      rw [hctor]
      apply dlookup_first
      · exact List.mem_flatMap.2 ⟨r, hr, List.mem_map.2 ⟨c, hc, rfl⟩⟩
      · intro v' hv'
        obtain ⟨r', hr', hv''⟩ := List.mem_flatMap.1 hv'
        obtain ⟨c', hc', he'⟩ := List.mem_map.1 hv''
        have hcc : c' = c := congrArg Prod.fst he'
        have hvv : v' = r'.id := (congrArg Prod.snd he').symm
        by_cases hrr : r' = r
        · rw [hvv, hrr]
        · exact absurd hc (htop.2.2.forall hsymdisj hr' hr hrr c (hcc ▸ hc'))
  · intro rv1 hrv1 rv2 hrv2 c hc1 hc2
    rw [hroutes] at hrv1 hrv2
    obtain ⟨r1, hr1, he1⟩ := List.mem_map.1 hrv1
    obtain ⟨r2, hr2, he2⟩ := List.mem_map.1 hrv2
    rw [← he1] at hc1
    rw [← he2] at hc2
    by_cases hrr : r1 = r2
    · rw [← he1, ← he2, hrr]
    · exact absurd hc2 (htop.2.2.forall hsymdisj hr1 hr2 hrr c hc1)

/-! ### Insert / remove preserve the reverse-index invariant -/

theorem getElem_cons_eraseIdx_perm {α : Type} (l : List α) (i : ℕ) (h : i < l.length) :
    (l[i] :: l.eraseIdx i).Perm l := by
  conv_rhs => rw [← List.take_append_drop i l, List.drop_eq_getElem_cons h]
  rw [List.eraseIdx_eq_take_drop_succ]
  exact List.perm_middle.symm

/-- Two lists that agree on first and last element and are permutations of
each other have permuted interiors. -/
theorem perm_interior {l1 l2 : List ℕ} (hperm : l1.Perm l2) (hlen : 2 ≤ l2.length)
    (hh : l1.head? = l2.head?) (hl : l1.getLast? = l2.getLast?) :
    (interiorL l1).Perm (interiorL l2) := by
  cases hh2 : l2.head? with
  | none =>
    rw [List.head?_eq_none_iff] at hh2
    rw [hh2] at hlen
    simp at hlen
  | some s =>
    cases hl2 : l2.getLast? with
    | none =>
      rw [List.getLast?_eq_none_iff] at hl2
      rw [hl2] at hlen
      simp at hlen
    | some t =>
      have e2 : l2 = s :: interiorL l2 ++ [t] := list_decomp hlen hh2 hl2
      have e1 : l1 = s :: interiorL l1 ++ [t] :=
        list_decomp (by rw [hperm.length_eq]; exact hlen) (hh.trans hh2) (hl.trans hl2)
      have hp2 : (s :: (interiorL l1 ++ [t])).Perm (s :: (interiorL l2 ++ [t])) := by
        rw [← List.cons_append, ← e1, ← List.cons_append, ← e2]
        exact hperm
      exact (List.perm_append_right_iff [t]).1 hp2.cons_inv

theorem dlookup_map_self (routeId : ℕ) :
    ∀ (app : List ℕ) (c : ℕ), c ∈ app →
      dlookup c (app.map fun a => (a, routeId)) = some routeId := by
  intro app
  induction app with
  | nil =>
    intro c hc
    simp at hc
  | cons a t ih =>
    intro c hc
    rw [List.map_cons, dlookup_cons]
    by_cases hac : a = c
    · rw [if_pos hac]
    · rw [if_neg hac]
      refine ih c ?_
      rcases List.mem_cons.1 hc with he | hm
      · exact absurd he.symm hac
      · exact hm

theorem atMostOne_of_routesInv {p : Problem} {sol : Solution}
    (h : RoutesInv p sol.routes) : AtMostOne sol := by
  intro rv1 h1 rv2 h2 c hc1 hc2
  by_cases hk : rv1.1 = rv2.1
  · exact entry_unique h.1 h1 h2 hk
  · exact absurd hc2 (h.2.2 _ h1 _ h2 hk c hc1)

/-- Case analysis of a successful `remove`: either nothing changed, or the
picked route had at least two interior customers and its 2-opted reduction
fit the budget, and the solution is the one-route replacement plus the
reverse-index pop. -/
theorem remove_cases {p : Problem} {sol : Solution} {pick pick2 fuel : ℕ} {out : Solution}
    (h : remove p sol pick pick2 fuel = some out) :
    out = ⟨sol.routes, sol.cToR⟩ ∨
      ∃ route, dlookup (pickKey sol pick) sol.routes = some route ∧
        4 ≤ route.customers.length ∧
        (removeCandidate p (pickKey sol pick) route (removeIdx route pick2) fuel).length
          ≤ p.tmax ∧
        (dlookup (route.customers.getD (removeIdx route pick2) 0) sol.cToR).isSome ∧
        out = ⟨dinsert (pickKey sol pick)
            (removeCandidate p (pickKey sol pick) route (removeIdx route pick2) fuel)
            sol.routes,
          dpop (route.customers.getD (removeIdx route pick2) 0) sol.cToR⟩ := by
  rw [remove] at h
  split at h
  case isTrue => exact absurd h (by simp)
  case isFalse hne =>
    dsimp only at h
    cases hrt : dlookup (pickKey sol pick) sol.routes with
    | none =>
      rw [hrt] at h
      exact absurd h (by simp)
    | some route =>
      rw [hrt] at h
      simp only [Option.bind_eq_bind, Option.some_bind] at h
      by_cases hlen : route.customers.length ≤ 3
      · rw [if_pos hlen] at h
        cases h
        left
        rfl
      · rw [if_neg hlen] at h
        by_cases hfit : (removeCandidate p (pickKey sol pick) route
            (removeIdx route pick2) fuel).length ≤ p.tmax
        · rw [if_pos hfit] at h
          cases hpe : dpopE (route.customers.getD (removeIdx route pick2) 0) sol.cToR with
          | none =>
            rw [hpe] at h
            exact absurd h (by simp)
          | some cToR' =>
            rw [hpe] at h
            simp only [Option.bind_eq_bind, Option.some_bind, Option.some.injEq] at h
            rw [dpopE] at hpe
            split at hpe
            next hsome =>
              right
              refine ⟨route, rfl, by omega, hfit, hsome, ?_⟩
              rw [← h]
              simp only [Option.some.injEq] at hpe
              rw [hpe]
            next h2 => exact absurd hpe (by simp)
        · rw [if_neg hfit] at h
          cases h
          left
          rfl

/-- The recorded length never increases under 2-opt, with no hypothesis on
the distance table: improvements are only applied when strictly
negative. -/
theorem opt2Step_le (d : ℕ → ℕ → ℚ) (st : List ℕ × ℚ × Bool) (ij : ℕ × ℕ) :
    (opt2Step d st ij).2.1 ≤ st.2.1 := by
  rw [opt2Step]
  split
  next himp => simp only []; linarith [himp]
  next => exact le_refl _

theorem opt2Sweep_le (d : ℕ → ℕ → ℚ) (cs : List ℕ) (len : ℚ) :
    (opt2Sweep d cs len).2.1 ≤ len := by
  rw [opt2Sweep]
  refine foldl_inv (P := fun st : List ℕ × ℚ × Bool => st.2.1 ≤ len) ?_ _ (le_refl len)
  intro st ij _ hle
  exact (opt2Step_le d st ij).trans hle

theorem opt2Loop_le (d : ℕ → ℕ → ℚ) :
    ∀ (fuel : ℕ) (cs : List ℕ) (len : ℚ), (opt2Loop d fuel cs len).2 ≤ len := by
  intro fuel
  induction fuel with
  | zero => exact fun cs len => le_refl len
  | succ fuel ih =>
    intro cs len
    rw [opt2Loop]
    by_cases hfl : (opt2Sweep d cs len).2.2
    · rw [if_pos hfl]
      exact (ih _ _).trans (opt2Sweep_le d cs len)
    · rw [if_neg hfl]
      exact opt2Sweep_le d cs len

theorem opt2_le (p : Problem) (route : Route) (fuel : ℕ) :
    (opt2 p route fuel).length ≤ route.length :=
  opt2Loop_le p.dists fuel route.customers route.length

/-- The pre-2-opt customer list built by `remove` at an interior position:
dropping position `idx` of `source :: I ++ [sink]` erases `I[idx-1]`. -/
theorem remove_newCs {cs : List ℕ} {idx : ℕ} (h1 : 1 ≤ idx)
    (h2 : idx ≤ cs.length - 2) (hlen : 4 ≤ cs.length) :
    ∀ {s t : ℕ}, cs = s :: interiorL cs ++ [t] →
    cs.take idx ++ cs.drop (idx + 1)
      = s :: (interiorL cs).eraseIdx (idx - 1) ++ [t] := by
  intro s t hdec
  have hc : cs.length = (interiorL cs).length + 2 := by
    conv_lhs => rw [hdec]
    simp
  have hidx1 : idx - 1 ≤ (interiorL cs).length := by omega
  have htake : List.take idx ((s :: interiorL cs) ++ [t])
      = s :: List.take (idx - 1) (interiorL cs) := by
    conv_lhs => rw [List.cons_append, show idx = (idx - 1) + 1 by omega]
    rw [List.take_succ_cons, List.take_append_of_le_length hidx1]
  have hdrop : List.drop (idx + 1) ((s :: interiorL cs) ++ [t])
      = List.drop idx (interiorL cs) ++ [t] := by
    conv_lhs => rw [List.cons_append, show idx + 1 = ((idx - 1) + 1) + 1 by omega]
    rw [List.drop_succ_cons, show (idx - 1) + 1 = idx by omega,
      List.drop_append_of_le_length (by omega)]
  conv_lhs => rw [hdec, htake, hdrop]
  rw [List.eraseIdx_eq_take_drop_succ, show (idx - 1) + 1 = idx by omega]
  simp

theorem remove_removed {cs : List ℕ} {idx : ℕ} (h1 : 1 ≤ idx)
    (h2 : idx ≤ cs.length - 2) (hlen : 4 ≤ cs.length) :
    ∀ {s t : ℕ}, cs = s :: interiorL cs ++ [t] →
    cs.getD idx 0 = (interiorL cs).getD (idx - 1) 0 := by
  intro s t hdec
  have hc : cs.length = (interiorL cs).length + 2 := by
    conv_lhs => rw [hdec]
    simp
  have hb : idx - 1 < (interiorL cs).length := by omega
  conv_lhs => rw [hdec, List.cons_append, show idx = (idx - 1) + 1 by omega]
  rw [List.getD_cons_succ, List.getD_eq_getElem _ _ (by simp; omega),
    List.getD_eq_getElem _ _ hb, List.getElem_append_left hb]

theorem removeIdx_bounds {route : Route} (pick2 : ℕ) (h : 4 ≤ route.customers.length) :
    1 ≤ removeIdx route pick2 ∧ removeIdx route pick2 ≤ route.customers.length - 2 := by
  rw [removeIdx]
  have := Nat.mod_lt pick2 (y := route.customers.length - 2) (by omega)
  omega

theorem remove_props {p : Problem} {sol : Solution} {pick pick2 fuel : ℕ} {out : Solution}
    (hsym : ∀ i j, p.dists i j = p.dists j i)
    (h : remove p sol pick pick2 fuel = some out)
    (hinv : RoutesInv p sol.routes) (hm : Mirrors sol) :
    RoutesInv p out.routes ∧ Mirrors out := by
  rcases remove_cases h with heq | ⟨route, hrt, hlen, _, _, heq⟩
  · rw [heq]
    exact ⟨hinv, hm⟩
  · obtain ⟨hnd, hkc, hdisj⟩ := hinv
    have houtr : out.routes
        = dinsert (pickKey sol pick)
            (removeCandidate p (pickKey sol pick) route (removeIdx route pick2) fuel)
            sol.routes := by
      rw [heq]
    have houtc : out.cToR
        = dpop (route.customers.getD (removeIdx route pick2) 0) sol.cToR := by
      rw [heq]
    have hmemR : (pickKey sol pick, route) ∈ sol.routes := dlookup_mem hrt
    have hidR : route.id = pickKey sol pick := (hkc _ hmemR).1
    have hwfR : WFRoute p route := (hkc _ hmemR).2
    have hdec := wf_decomp hwfR
    obtain ⟨hb1, hb2⟩ := removeIdx_bounds pick2 hlen
    have hremI : route.customers.getD (removeIdx route pick2) 0
        = (interiorL route.customers).getD (removeIdx route pick2 - 1) 0 :=
      remove_removed hb1 hb2 hlen hdec
    have hc : route.customers.length = (interiorL route.customers).length + 2 := by
      conv_lhs => rw [hdec]
      simp
    have hbI : removeIdx route pick2 - 1 < (interiorL route.customers).length := by omega
    have hremmem : route.customers.getD (removeIdx route pick2) 0
        ∈ interiorL route.customers := by
      rw [hremI, List.getD_eq_getElem _ _ hbI]
      exact List.getElem_mem _
    have hpermIer : ((route.customers.getD (removeIdx route pick2) 0)
        :: (interiorL route.customers).eraseIdx (removeIdx route pick2 - 1)).Perm
          (interiorL route.customers) := by
      rw [hremI, List.getD_eq_getElem _ _ hbI]
      exact getElem_cons_eraseIdx_perm _ _ hbI
    have hnodupI : (interiorL route.customers).Nodup := hwfR.2.2.2.1
    have hremNotEr : route.customers.getD (removeIdx route pick2) 0
        ∉ (interiorL route.customers).eraseIdx (removeIdx route pick2 - 1) :=
      (List.nodup_cons.1 (hpermIer.nodup_iff.2 hnodupI)).1
    have hnewCs : route.customers.take (removeIdx route pick2)
        ++ route.customers.drop (removeIdx route pick2 + 1)
        = 0 :: (interiorL route.customers).eraseIdx (removeIdx route pick2 - 1)
          ++ [p.n - 1] := remove_newCs hb1 hb2 hlen hdec
    obtain ⟨hq1, hq2, hq3, _, _, hq6, _⟩ := opt2_spec p
      ⟨pickKey sol pick,
       route.customers.take (removeIdx route pick2)
         ++ route.customers.drop (removeIdx route pick2 + 1),
       route.length
         - p.dists (route.customers.getD (removeIdx route pick2 - 1) 0)
             (route.customers.getD (removeIdx route pick2) 0)
         - p.dists (route.customers.getD (removeIdx route pick2) 0)
             (route.customers.getD (removeIdx route pick2 + 1) 0)
         + p.dists (route.customers.getD (removeIdx route pick2 - 1) 0)
             (route.customers.getD (removeIdx route pick2 + 1) 0),
       route.reward - p.reward (route.customers.getD (removeIdx route pick2) 0)⟩
      fuel hsym
    set nr := removeCandidate p (pickKey sol pick) route (removeIdx route pick2) fuel
      with hnrd
    have hper : nr.customers.Perm (0 :: (interiorL route.customers).eraseIdx
        (removeIdx route pick2 - 1) ++ [p.n - 1]) := by
      rw [← hnewCs]
      exact hq1
    have hq2n : nr.customers.head? = (0 :: (interiorL route.customers).eraseIdx
        (removeIdx route pick2 - 1) ++ [p.n - 1]).head? := by
      rw [← hnewCs]
      exact hq2
    have hq3n : nr.customers.getLast? = (0 :: (interiorL route.customers).eraseIdx
        (removeIdx route pick2 - 1) ++ [p.n - 1]).getLast? := by
      rw [← hnewCs]
      exact hq3
    have hq6n : nr.id = pickKey sol pick := hq6
    have hIer : (interiorL nr.customers).Perm
        ((interiorL route.customers).eraseIdx (removeIdx route pick2 - 1)) := by
      have := perm_interior hper (by simp) hq2n hq3n
      rwa [interiorL_structured] at this
    have hsubI : ∀ c ∈ interiorL nr.customers, c ∈ interiorL route.customers := by
      intro c hcm
      exact (List.eraseIdx_sublist _ _).mem (hIer.mem_iff.1 hcm)
    have hwfNr : WFRoute p nr := by
      refine ⟨?_, ?_, ?_, ?_, ?_⟩
      · rw [hper.length_eq]
        simp
      · rw [hq2n]
        rfl
      · rw [hq3n]
        exact List.getLast?_concat _
      · exact hIer.nodup_iff.2
          ((List.eraseIdx_sublist _ _).nodup hnodupI)
      · intro c hcm
        exact hwfR.2.2.2.2 c (hsubI c hcm)
    have hmem_new : ∀ kv : ℕ × Route, kv ∈ out.routes →
        kv = (pickKey sol pick, nr) ∨ (kv ∈ sol.routes ∧ kv.1 ≠ pickKey sol pick) := by
      intro kv hkv
      rw [houtr] at hkv
      exact mem_dinsert hkv
    have hninr : ∀ c, c ∈ interiorL route.customers →
        c ≠ route.customers.getD (removeIdx route pick2) 0 →
        c ∈ interiorL nr.customers := by
      intro c hcm hcne
      rcases List.mem_cons.1 (hpermIer.symm.mem_iff.1 hcm) with he | hin
      · exact absurd he hcne
      · exact hIer.symm.mem_iff.1 hin
    constructor
    · refine ⟨?_, ?_, ?_⟩
      · rw [houtr]
        exact nodupKeys_dinsert hnd
      · intro kv hkv
        rcases hmem_new kv hkv with he | ⟨hmem, _⟩
        · rw [he]
          exact ⟨hq6n, hwfNr⟩
        · exact hkc _ hmem
      · intro kv1 hkv1 kv2 hkv2 hne c hc
        rcases hmem_new kv1 hkv1 with he1 | ⟨hm1, hi1⟩ <;>
          rcases hmem_new kv2 hkv2 with he2 | ⟨hm2, hi2⟩
        · rw [he1, he2] at hne
          exact absurd rfl hne
        · rw [he1] at hc hne
          exact hdisj _ hmemR _ hm2 (fun hq => hi2 hq.symm) c (hsubI c hc)
        · rw [he2]
          intro hcm
          exact hdisj _ hm1 _ hmemR hi1 c hc (hsubI c hcm)
        · exact hdisj _ hm1 _ hm2 hne c hc
    · constructor
      · intro kv hkv
        rw [houtc] at hkv
        obtain ⟨hkvm, hkvne⟩ := mem_dpop.1 hkv
        obtain ⟨rv, hrv, hrvid, hrvint⟩ := hm.1 kv hkvm
        by_cases hkey : rv.1 = pickKey sol pick
        · have hrveq : rv = (pickKey sol pick, route) :=
            entry_unique hnd hrv hmemR hkey
          refine ⟨(pickKey sol pick, nr), ?_, ?_, ?_⟩
          · rw [houtr]
            exact self_mem_dinsert _ _ _
          · rw [← hrvid, hkey]
          · apply hninr
            · rw [hrveq] at hrvint
              exact hrvint
            · exact hkvne
        · refine ⟨rv, ?_, hrvid, hrvint⟩
          rw [houtr]
          exact mem_dinsert_of_ne hrv hkey
      · intro rv hrv c hc
        rw [houtc]
        rcases hmem_new rv hrv with he | ⟨hmem, hkey⟩
        · rw [he] at hc ⊢
          have hcI : c ∈ interiorL route.customers := hsubI c hc
          have hcne : c ≠ route.customers.getD (removeIdx route pick2) 0 := by
            intro hceq
            rw [hceq] at hc
            exact hremNotEr (hIer.mem_iff.1 hc)
          rw [dlookup_dpop_ne hcne]
          exact hm.2 _ hmemR c hcI
        · have hcne : c ≠ route.customers.getD (removeIdx route pick2) 0 := by
            intro hceq
            have : c ∉ interiorL route.customers :=
              fun hmm => hdisj _ hmemR _ hmem (fun hq => hkey hq.symm) c hmm hc
            rw [hceq] at this
            exact this hremmem
          rw [dlookup_dpop_ne hcne]
          exact hm.2 rv hmem c hc

/-- Under the triangle inequality, the replacement route committed by
`remove` is never longer than the picked route; and the skip branches
return the solution unchanged. -/
theorem remove_length_spec {p : Problem} {sol : Solution} {pick pick2 fuel : ℕ}
    {out : Solution} (hnd : NodupKeys sol.routes)
    (htri : ∀ a b c, p.dists a c ≤ p.dists a b + p.dists b c)
    (h : remove p sol pick pick2 fuel = some out)
    {rIn : Route} (hin : dlookup (pickKey sol pick) sol.routes = some rIn) :
    (∀ rOut, dlookup (pickKey sol pick) out.routes = some rOut →
      rOut.length ≤ rIn.length) ∧
    (rIn.customers.length ≤ 3 → out = ⟨sol.routes, sol.cToR⟩) ∧
    (p.tmax < (removeCandidate p (pickKey sol pick) rIn (removeIdx rIn pick2) fuel).length
      → out = ⟨sol.routes, sol.cToR⟩) := by
  rcases remove_cases h with heq | ⟨route, hrt, hlen, hfit, _, heq⟩
  · have houtr : out.routes = sol.routes := by rw [heq]
    refine ⟨?_, fun _ => heq, fun _ => heq⟩
    intro rOut hout
    rw [houtr, hin] at hout
    cases hout
    exact le_refl _
  · have hre : route = rIn := by
      rw [hin] at hrt
      exact (Option.some_inj.mp hrt).symm
    subst hre
    have houtr : out.routes
        = dinsert (pickKey sol pick)
            (removeCandidate p (pickKey sol pick) route (removeIdx route pick2) fuel)
            sol.routes := by
      rw [heq]
    refine ⟨?_, ?_, ?_⟩
    · intro rOut hout
      rw [houtr, dlookup_dinsert_self _ _ hnd] at hout
      cases hout
      have h1 : (removeCandidate p (pickKey sol pick) route (removeIdx route pick2)
          fuel).length
          ≤ route.length
            - p.dists (route.customers.getD (removeIdx route pick2 - 1) 0)
                (route.customers.getD (removeIdx route pick2) 0)
            - p.dists (route.customers.getD (removeIdx route pick2) 0)
                (route.customers.getD (removeIdx route pick2 + 1) 0)
            + p.dists (route.customers.getD (removeIdx route pick2 - 1) 0)
                (route.customers.getD (removeIdx route pick2 + 1) 0) :=
        opt2_le p _ fuel
      have h2 := htri (route.customers.getD (removeIdx route pick2 - 1) 0)
        (route.customers.getD (removeIdx route pick2) 0)
        (route.customers.getD (removeIdx route pick2 + 1) 0)
      linarith
    · intro hsmall
      omega
    · intro hbig
      exact absurd hfit (by linarith)

/-! ### `insert` preserves the reverse-index invariant -/

/-- Fold a fallible step over a list, carrying an invariant. -/
theorem foldlM_option_inv {σ α : Type} {P : σ → Prop} {f : σ → α → Option σ} :
    ∀ {l : List α}, (∀ s a r, a ∈ l → f s a = some r → P s → P r) →
      ∀ {init r : σ}, l.foldlM f init = some r → P init → P r := by
  intro l
  induction l with
  | nil =>
    intro _ init r h hP
    rw [List.foldlM] at h
    cases h
    exact hP
  | cons a t ih =>
    intro hstep init r h hP
    rw [List.foldlM_cons] at h
    cases hfa : f init a with
    | none =>
      rw [hfa] at h
      exact absurd h (by simp)
    | some s1 =>
      rw [hfa] at h
      simp only [Option.bind_eq_bind, Option.some_bind] at h
      exact ih (fun s a' r' ha' => hstep s a' r' (List.mem_cons_of_mem _ ha')) h
        (hstep init a s1 (List.mem_cons_self _ _) hfa hP)

theorem insertStep_cases {p : Problem} {routeId fuel : ℕ}
    {acc acc' : List (ℕ × Route) × List (ℕ × ℕ)} {id : ℕ}
    (h : insertStep p routeId fuel acc id = some acc') :
    acc' = acc ∨
      ∃ route, dlookup id acc.2 = none ∧ id ≠ 0 ∧ id ≠ p.n - 1 ∧
        dlookup routeId acc.1 = some route ∧
        (opt2 p ⟨routeId, route.customers.take 1 ++ id :: route.customers.drop 1,
          legsSum p.dists (route.customers.take 1 ++ id :: route.customers.drop 1),
          route.reward + p.reward id⟩ fuel).length ≤ p.tmax ∧
        acc' = (dinsert routeId
            (opt2 p ⟨routeId, route.customers.take 1 ++ id :: route.customers.drop 1,
              legsSum p.dists (route.customers.take 1 ++ id :: route.customers.drop 1),
              route.reward + p.reward id⟩ fuel) acc.1,
          dinsert id routeId acc.2) := by
  rw [insertStep] at h
  split at h
  case isTrue =>
    cases h
    left
    rfl
  case isFalse hcond =>
    push_neg at hcond
    obtain ⟨hs0, h0, ht⟩ := hcond
    have hs : dlookup id acc.2 = none := by
      cases hx : dlookup id acc.2 with
      | none => rfl
      | some v => simp [hx] at hs0
    cases hrt : dlookup routeId acc.1 with
    | none =>
      rw [hrt] at h
      exact absurd h (by simp)
    | some route =>
      rw [hrt] at h
      simp only [Option.bind_eq_bind, Option.some_bind] at h
      split at h
      next hfit =>
        cases h
        right
        exact ⟨route, hs, h0, ht, rfl, hfit, rfl⟩
      next hfit =>
        cases h
        left
        rfl

theorem dlookup_map_update_self {β : Type} (k : ℕ) (v : β) :
    ∀ d : List (ℕ × β), k ∈ dkeys d →
      dlookup k (d.map fun kv => if kv.1 = k then (k, v) else kv) = some v := by
  intro d
  induction d with
  | nil =>
    intro h
    simp [dkeys] at h
  | cons kv t ih =>
    intro h
    obtain ⟨a, b⟩ := kv
    by_cases hak : a = k
    · subst hak
      rw [List.map_cons, show (if ((a, b) : ℕ × β).1 = a then (a, v) else (a, b)) = (a, v)
        from by simp, dlookup_cons, if_pos rfl]
    · rw [List.map_cons, show (if ((a, b) : ℕ × β).1 = k then (k, v) else (a, b)) = (a, b)
        from by simp [hak], dlookup_cons, if_neg hak]
      refine ih ?_
      simp only [dkeys, List.map_cons, List.mem_cons] at h
      rcases h with h1 | h2
      · exact absurd h1.symm hak
      · exact h2

/-- Writing `d[k] = v` always makes a subsequent `d[k]` read back `v`,
whether the key overwrote an old binding or was appended. -/
theorem dlookup_dinsert_self_any {β : Type} (k : ℕ) (v : β) (d : List (ℕ × β)) :
    dlookup k (dinsert k v d) = some v := by
  rw [dinsert]
  by_cases hm : k ∈ dkeys d
  · rw [if_pos hm]
    exact dlookup_map_update_self k v d hm
  · rw [if_neg hm, dlookup_append, dlookup_eq_none.mpr hm]
    simp [dlookup]

/-- One step of `insert` preserves the routes invariant and the exact
reverse-index mirror. -/
theorem insertStep_props {p : Problem} {routeId fuel : ℕ}
    (hsym : ∀ i j, p.dists i j = p.dists j i)
    {acc acc' : List (ℕ × Route) × List (ℕ × ℕ)} {id : ℕ}
    (h : insertStep p routeId fuel acc id = some acc')
    (hP : RoutesInv p acc.1 ∧ Mirrors ⟨acc.1, acc.2⟩) :
    RoutesInv p acc'.1 ∧ Mirrors ⟨acc'.1, acc'.2⟩ := by
  rcases insertStep_cases h with heq | ⟨route, hs, h0, ht, hrt, hfit, heq⟩
  · rw [heq]
    exact hP
  · obtain ⟨⟨hnd, hkc, hdisj⟩, hmir⟩ := hP
    have hmf : ∀ kv ∈ acc.2, ∃ rv ∈ acc.1, rv.1 = kv.2 ∧ kv.1 ∈ interiorL rv.2.customers :=
      hmir.1
    have hmb : ∀ rv ∈ acc.1, ∀ c ∈ interiorL rv.2.customers,
        dlookup c acc.2 = some rv.1 := hmir.2
    have hroute_mem : (routeId, route) ∈ acc.1 := dlookup_mem hrt
    have hwf : WFRoute p route := (hkc _ hroute_mem).2
    have hdec := wf_decomp hwf
    have hnew : route.customers.take 1 ++ id :: route.customers.drop 1
        = 0 :: (id :: interiorL route.customers) ++ [p.n - 1] := by
      conv_lhs => rw [hdec]
      simp
    have idFresh : ∀ rv ∈ acc.1, id ∉ interiorL rv.2.customers := by
      intro rv hrv hcid
      have hlk := hmb rv hrv id hcid
      rw [hs] at hlk
      exact absurd hlk (by simp)
    obtain ⟨q1, q2, q3, _, _, q6, _⟩ :=
      opt2_spec p ⟨routeId, route.customers.take 1 ++ id :: route.customers.drop 1,
        legsSum p.dists (route.customers.take 1 ++ id :: route.customers.drop 1),
        route.reward + p.reward id⟩ fuel hsym
    simp only at q1 q2 q3 q6
    set nr := opt2 p ⟨routeId, route.customers.take 1 ++ id :: route.customers.drop 1,
      legsSum p.dists (route.customers.take 1 ++ id :: route.customers.drop 1),
      route.reward + p.reward id⟩ fuel with hnr
    have hlen2 : 2 ≤ (route.customers.take 1 ++ id :: route.customers.drop 1).length := by
      rw [hnew]
      simp
    have hintp : (interiorL nr.customers).Perm (id :: interiorL route.customers) := by
      have := perm_interior q1 hlen2 q2 q3
      rwa [hnew, interiorL_structured] at this
    have hintmem : ∀ c, c ∈ interiorL nr.customers ↔
        (c = id ∨ c ∈ interiorL route.customers) := by
      intro c
      rw [hintp.mem_iff, List.mem_cons]
    have hwfnr : WFRoute p nr := by
      refine ⟨?_, ?_, ?_, ?_, ?_⟩
      · rw [q1.length_eq]
        exact hlen2
      · rw [q2, hnew]
        rfl
      · rw [q3, hnew]
        rw [show (0 : ℕ) :: (id :: interiorL route.customers) ++ [p.n - 1]
          = ((0 : ℕ) :: id :: interiorL route.customers) ++ [p.n - 1] from rfl]
        exact List.getLast?_concat _
      · refine hintp.nodup_iff.mpr ?_
        exact List.nodup_cons.mpr ⟨idFresh _ hroute_mem, hwf.2.2.2.1⟩
      · intro c hc
        rcases (hintmem c).mp hc with rfl | hcI
        · exact ⟨h0, ht⟩
        · exact hwf.2.2.2.2 c hcI
    have hacc1 : acc'.1 = dinsert routeId nr acc.1 := by
      rw [heq]
    have hacc2 : acc'.2 = dinsert id routeId acc.2 := by
      rw [heq]
    refine ⟨⟨?_, ?_, ?_⟩, ?_, ?_⟩
    · rw [hacc1]
      exact nodupKeys_dinsert hnd
    · rw [hacc1]
      intro kv hkv
      rcases mem_dinsert hkv with rfl | ⟨hold, _⟩
      · exact ⟨q6, hwfnr⟩
      · exact hkc _ hold
    · rw [hacc1]
      intro kv1 h1 kv2 h2 hk12 c hc1
      rcases mem_dinsert h1 with rfl | ⟨h1o, h1ne⟩
      · rcases mem_dinsert h2 with rfl | ⟨h2o, h2ne⟩
        · exact absurd rfl hk12
        · simp only at hc1 hk12
          rcases (hintmem c).mp hc1 with rfl | hcI
          · exact idFresh _ h2o
          · exact hdisj _ hroute_mem _ h2o (by simpa using hk12.symm ∘ Eq.symm) c hcI
      · rcases mem_dinsert h2 with rfl | ⟨h2o, h2ne⟩
        · simp only
          intro hc2
          rcases (hintmem c).mp hc2 with rfl | hcI
          · exact idFresh _ h1o hc1
          · exact hdisj _ h1o _ hroute_mem (by simpa using h1ne) c hc1 hcI
        · exact hdisj _ h1o _ h2o hk12 c hc1
    · rw [hacc1, hacc2]
      intro kv hkv
      rcases mem_dinsert hkv with rfl | ⟨hold, holdne⟩
      · refine ⟨(routeId, nr), self_mem_dinsert _ _ _, rfl, ?_⟩
        simp only
        exact (hintmem id).mpr (Or.inl rfl)
      · obtain ⟨rv, hrvm, hrvk, hrvc⟩ := hmf kv hold
        by_cases hrid : rv.1 = routeId
        · have hre : rv = (routeId, route) :=
            entry_unique hnd hrvm hroute_mem hrid
          refine ⟨(routeId, nr), self_mem_dinsert _ _ _, by rw [← hrvk, hrid], ?_⟩
          simp only
          refine (hintmem kv.1).mpr (Or.inr ?_)
          rw [hre] at hrvc
          exact hrvc
        · exact ⟨rv, mem_dinsert_of_ne hrvm hrid, hrvk, hrvc⟩
    · rw [hacc1, hacc2]
      intro rv hrv c hc
      rcases mem_dinsert hrv with rfl | ⟨hold, holdne⟩
      · simp only at hc ⊢
        rcases (hintmem c).mp hc with rfl | hcI
        · exact dlookup_dinsert_self_any c routeId acc.2
        · have hcne : c ≠ id := by
            intro hcid
            exact idFresh _ hroute_mem (hcid ▸ hcI)
          rw [dlookup_dinsert_ne _ _ hcne]
          exact hmb _ hroute_mem c hcI
      · have hcne : c ≠ id := by
          intro hcid
          exact idFresh _ hold (hcid ▸ hc)
        rw [dlookup_dinsert_ne _ _ hcne]
        exact hmb _ hold c hc

/-- `insert` preserves the routes invariant and the exact reverse-index
mirror of the solution it rewrites. -/
theorem insert_props {p : Problem} {sol : Solution} {pick fuel : ℕ} {out : Solution}
    (hsym : ∀ i j, p.dists i j = p.dists j i)
    (h : insert p sol pick fuel = some out)
    (hinv : RoutesInv p sol.routes) (hm : Mirrors sol) :
    RoutesInv p out.routes ∧ Mirrors out := by
  rw [TOP.insert] at h
  split at h
  next => simp at h
  next =>
    simp only [Option.bind_eq_bind] at h
    cases hacc : (List.range p.n).foldlM (insertStep p (pickKey sol pick) fuel)
        (sol.routes, sol.cToR) with
    | none =>
      rw [hacc] at h
      simp at h
    | some acc =>
      rw [hacc] at h
      simp only [Option.some_bind] at h
      cases h
      have hP : RoutesInv p acc.1 ∧ Mirrors ⟨acc.1, acc.2⟩ :=
        foldlM_option_inv (fun s a r _ hstep hPs => insertStep_props hsym hstep hPs)
          hacc ⟨hinv, hm⟩
      exact hP

/-! ### `constructive_heuristic` invariants -/

/-- The one yield consumed from `bra_selector` is an element of the input
collection. -/
theorem braFirst_mem {α : Type} {val : α → ℚ} {beta : ℚ} {draw : ℕ} {lst : List α} {cs : α}
    (h : braFirst val beta draw lst = some cs) : cs ∈ lst := by
  rw [braFirst] at h
  split at h
  next => simp at h
  next =>
    split at h
    next => simp at h
    next => exact (List.perm_insertionSort _ lst).mem_iff.mp (List.get?_mem h)

/-- What membership in the constructive candidate list guarantees: the
customer is unvisited, the detour through it still reaches the sink within
`tmax`, its id is a real customer id, and the recorded reward field is its
problem reward. -/
theorem constructiveCandidates_mem {p : Problem} {alpha : ℚ} {visited : List ℕ}
    {cnode : ℕ} {cdist : ℚ} {cs : ConstructiveStep}
    (h : cs ∈ constructiveCandidates p alpha visited cnode cdist) :
    cs.id ∉ visited ∧ cdist + p.dists cnode cs.id + p.dists cs.id (p.n - 1) ≤ p.tmax ∧
      cs.id < p.n ∧ cs.reward = p.reward cs.id := by
  rw [constructiveCandidates, List.mem_filterMap] at h
  obtain ⟨id, hid, hif⟩ := h
  rw [List.mem_range] at hid
  split at hif
  next hcond =>
    cases hif
    exact ⟨hcond.1, hcond.2, hid, rfl⟩
  next => simp at hif

/-- Unrolling of the inner `while` of `constructive_heuristic`: the final
state extends the initial one by a list `app` of appended customers, each
fresh and in range, recorded in both the route and the reverse index; and
the route length stays within budget whenever it was (the closing leg to
the sink is pre-paid by the candidate filter). -/
theorem constructiveInner_spec (p : Problem) (alpha beta : ℚ) (draws : ℕ → ℕ)
    (routeId : ℕ) :
    ∀ (fuel k : ℕ) (st st' : CState) (k' : ℕ),
      constructiveInner p alpha beta draws routeId fuel k st = some (st', k') →
      ∃ app : List ℕ,
        st'.visited = st.visited ++ app ∧
        st'.route = st.route ++ app ∧
        st'.cToR = app.foldl (fun d c => dinsert c routeId d) st.cToR ∧
        (∀ c ∈ app, c ∉ st.visited ∧ c < p.n) ∧ app.Nodup ∧
        ((2 ≤ st.route.length → st.cdist + p.dists st.cnode (p.n - 1) ≤ p.tmax) →
          2 ≤ st'.route.length → st'.cdist + p.dists st'.cnode (p.n - 1) ≤ p.tmax) := by
  intro fuel
  induction fuel with
  | zero =>
    intro k st st' k' h
    rw [constructiveInner] at h
    cases h
    exact ⟨[], by simp, by simp, rfl, by simp, List.nodup_nil, fun hB => hB⟩
  | succ n ih =>
    intro k st st' k' h
    rw [constructiveInner] at h
    split at h
    next =>
      cases h
      exact ⟨[], by simp, by simp, rfl, by simp, List.nodup_nil, fun hB => hB⟩
    next =>
      simp only [Option.bind_eq_bind] at h
      cases hcs : braFirst ConstructiveStep.value beta (draws k)
          (constructiveCandidates p alpha st.visited st.cnode st.cdist) with
      | none =>
        rw [hcs] at h
        simp at h
      | some cs =>
        rw [hcs] at h
        simp only [Option.some_bind] at h
        obtain ⟨hfr, hbud, hrange, _⟩ :=
          constructiveCandidates_mem (braFirst_mem hcs)
        obtain ⟨app, hv, hr, hc, hmem, hnd, hB⟩ := ih (k + 1) _ st' k' h
        simp only at hv hr hc hmem hB
        refine ⟨cs.id :: app, ?_, ?_, ?_, ?_, ?_, ?_⟩
        · rw [hv, List.append_assoc, List.singleton_append]
        · rw [hr, List.append_assoc, List.singleton_append]
        · rw [hc, List.foldl_cons]
        · intro c hcm
          rcases List.mem_cons.mp hcm with rfl | hcm'
          · exact ⟨hfr, hrange⟩
          · have := hmem c hcm'
            refine ⟨fun hcv => this.1 (List.mem_append.mpr (Or.inl hcv)), this.2⟩
        · refine List.nodup_cons.mpr ⟨?_, hnd⟩
          intro hcsm
          exact (hmem cs.id hcsm).1 (List.mem_append.mpr (Or.inr (List.mem_singleton.mpr rfl)))
        · intro _
          refine hB ?_
          intro _
          exact hbud

/-- Invariant of the per-truck loop of `constructive_heuristic`: with
distinct fresh truck ids, the accumulated routes dict keeps the routes
invariant, the reverse index keeps the exact mirror, route interiors stay
inside the visited set, and every route with a nonempty interior fits the
budget. -/
theorem constructiveTrucks_inv (p : Problem) (alpha beta : ℚ) (draws : ℕ → ℕ) (fuel : ℕ) :
    ∀ (trucks : List ℕ) (routes : List (ℕ × Route)) (cToR : List (ℕ × ℕ))
      (visited : List ℕ) (k : ℕ) (out : List (ℕ × Route) × List (ℕ × ℕ) × List ℕ × ℕ),
      constructiveTrucks p alpha beta draws fuel trucks (routes, cToR, visited, k)
        = some out →
      trucks.Nodup → (∀ kv ∈ routes, kv.1 ∉ trucks) →
      0 ∈ visited → (p.n - 1) ∈ visited →
      RoutesInv p routes → Mirrors ⟨routes, cToR⟩ →
      (∀ kv ∈ routes, ∀ c ∈ interiorL kv.2.customers, c ∈ visited) →
      (∀ kv ∈ routes, interiorL kv.2.customers ≠ [] → kv.2.length ≤ p.tmax) →
      RoutesInv p out.1 ∧ Mirrors ⟨out.1, out.2.1⟩ ∧
        (∀ kv ∈ out.1, interiorL kv.2.customers ≠ [] → kv.2.length ≤ p.tmax) := by
  intro trucks
  induction trucks with
  | nil =>
    intro routes cToR visited k out h _ _ _ _ hinv hm _ hbud
    rw [constructiveTrucks] at h
    cases h
    exact ⟨hinv, hm, hbud⟩
  | cons i rest ih =>
    intro routes cToR visited k out h hndt hkeys h0v htv hinv hm hIntV hbud
    rw [constructiveTrucks] at h
    simp only [Option.bind_eq_bind] at h
    cases hr : constructiveInner p alpha beta draws i fuel k ⟨visited, cToR, [0], 0, 0, 0⟩ with
    | none =>
      rw [hr] at h
      simp at h
    | some r =>
      rw [hr] at h
      simp only [Option.some_bind] at h
      obtain ⟨hit, hrestnd⟩ := List.nodup_cons.mp hndt
      obtain ⟨app, hv, hrt, hc, hmem, hnd, hB⟩ :=
        constructiveInner_spec p alpha beta draws i fuel k ⟨visited, cToR, [0], 0, 0, 0⟩
          r.1 r.2 hr
      simp only at hv hrt hc hmem hB
      have hB' : 2 ≤ r.1.route.length →
          r.1.cdist + p.dists r.1.cnode (p.n - 1) ≤ p.tmax :=
        hB (fun hx => absurd hx (by simp))
      have hmf : ∀ kv ∈ cToR, ∃ rv ∈ routes, rv.1 = kv.2 ∧
          kv.1 ∈ interiorL rv.2.customers := hm.1
      have hmb : ∀ rv ∈ routes, ∀ c ∈ interiorL rv.2.customers,
          dlookup c cToR = some rv.1 := hm.2
      obtain ⟨hndk, hkc, hdisj⟩ := hinv
      have hfreshkey : ∀ kv ∈ routes, kv.1 ≠ i := by
        intro kv hkv hki
        exact hkeys kv hkv (hki ▸ List.mem_cons_self _ _)
      have happnv : ∀ c ∈ app, c ∉ visited := fun c hc => (hmem c hc).1
      have hctorkeys : ∀ kv ∈ cToR, kv.1 ∈ visited := by
        intro kv hkv
        obtain ⟨rv, hrv, _, hcin⟩ := hmf kv hkv
        exact hIntV rv hrv kv.1 hcin
      have hcustomers : r.1.route ++ [p.n - 1] = 0 :: app ++ [p.n - 1] := by
        rw [hrt]
        rfl
      have hint : interiorL (r.1.route ++ [p.n - 1]) = app := by
        rw [hcustomers, interiorL_structured]
      have hdepots : ∀ c ∈ app, c ≠ 0 ∧ c ≠ p.n - 1 := by
        intro c hc
        exact ⟨fun h0 => happnv c hc (h0 ▸ h0v), fun ht => happnv c hc (ht ▸ htv)⟩
      have hWFnew : WFRoute p ⟨i, r.1.route ++ [p.n - 1],
          r.1.cdist + p.dists r.1.cnode (p.n - 1), r.1.creward⟩ := by
        refine ⟨?_, ?_, ?_, ?_, ?_⟩
        · simp only [hcustomers]
          simp
        · simp only [hcustomers]
          rfl
        · simp only [hcustomers]
          exact List.getLast?_concat _
        · simp only [hint]
          exact hnd
        · simp only [hint]
          exact hdepots
      have happend : r.1.cToR = cToR ++ app.map fun c => (c, i) := by
        have hfm : app.foldl (fun d c => dinsert c i d) cToR
            = (app.map fun c => ((c, i) : ℕ × ℕ)).foldl
                (fun d kv => dinsert kv.1 kv.2 d) cToR := by
          rw [List.foldl_map]
        rw [hc, hfm]
        refine foldl_dinsert_eq_append _ _ ?_ ?_
        · intro key hkey hmemk
          simp only [List.map_map] at hmemk
          rw [List.mem_map] at hmemk
          obtain ⟨c, hcapp, hci⟩ := hmemk
          have hck : c = key := hci
          simp only [dkeys, List.mem_map] at hkey
          obtain ⟨kv, hkv, hk1⟩ := hkey
          exact happnv key (hck ▸ hcapp) (hk1 ▸ hctorkeys kv hkv)
        · simp only [List.map_map]
          have hcomp : (Prod.fst ∘ fun c => ((c, i) : ℕ × ℕ)) = id := rfl
          rw [hcomp, List.map_id]
          exact hnd
      have hckeysnone : ∀ c ∈ app, dlookup c cToR = none := by
        intro c hc
        cases hl : dlookup c cToR with
        | none => rfl
        | some v =>
          exact absurd (hctorkeys _ (dlookup_mem hl)) (happnv c hc)
      refine ih (dinsert i ⟨i, r.1.route ++ [p.n - 1],
          r.1.cdist + p.dists r.1.cnode (p.n - 1), r.1.creward⟩ routes)
        r.1.cToR r.1.visited r.2 out h hrestnd ?_ ?_ ?_ ⟨?_, ?_, ?_⟩ ⟨?_, ?_⟩ ?_ ?_
      · intro kv hkv
        rcases mem_dinsert hkv with rfl | ⟨hold, _⟩
        · exact hit
        · intro hmem'
          exact hkeys kv hold (List.mem_cons_of_mem _ hmem')
      · rw [hv]
        exact List.mem_append.mpr (Or.inl h0v)
      · rw [hv]
        exact List.mem_append.mpr (Or.inl htv)
      · exact nodupKeys_dinsert hndk
      · intro kv hkv
        rcases mem_dinsert hkv with rfl | ⟨hold, _⟩
        · exact ⟨rfl, hWFnew⟩
        · exact hkc kv hold
      · intro kv1 h1 kv2 h2 hk12 c hc1
        rcases mem_dinsert h1 with rfl | ⟨h1o, h1ne⟩
        · rcases mem_dinsert h2 with rfl | ⟨h2o, h2ne⟩
          · exact absurd rfl hk12
          · simp only [hint] at hc1
            intro hc2
            exact happnv c hc1 (hIntV kv2 h2o c hc2)
        · rcases mem_dinsert h2 with rfl | ⟨h2o, h2ne⟩
          · simp only [hint]
            intro hc2
            exact happnv c hc2 (hIntV kv1 h1o c hc1)
          · exact hdisj kv1 h1o kv2 h2o hk12 c hc1
      · intro kv hkv
        rw [happend] at hkv
        rcases List.mem_append.mp hkv with hold | hnew
        · obtain ⟨rv, hrv, hrk, hcin⟩ := hmf kv hold
          exact ⟨rv, mem_dinsert_of_ne hrv (hfreshkey rv hrv), hrk, hcin⟩
        · rw [List.mem_map] at hnew
          obtain ⟨c, hcapp, rfl⟩ := hnew
          refine ⟨_, self_mem_dinsert i _ routes, rfl, ?_⟩
          simp only [hint]
          exact hcapp
      · intro rv hrv c hc
        rcases mem_dinsert hrv with rfl | ⟨hold, holdne⟩
        · simp only [hint] at hc
          rw [happend, dlookup_append, hckeysnone c hc, Option.none_or]
          exact dlookup_map_self i app c hc
        · rw [happend, dlookup_append, hmb rv hold c hc]
          rfl
      · intro kv hkv c hc
        rcases mem_dinsert hkv with rfl | ⟨hold, _⟩
        · simp only [hint] at hc
          rw [hv]
          exact List.mem_append.mpr (Or.inr hc)
        · rw [hv]
          exact List.mem_append.mpr (Or.inl (hIntV kv hold c hc))
      · intro kv hkv hne
        rcases mem_dinsert hkv with rfl | ⟨hold, _⟩
        · simp only [hint] at hne
          refine hB' ?_
          rw [hrt]
          have hpos : 0 < app.length := List.length_pos.mpr hne
          simp only [List.length_append, List.length_cons, List.length_nil]
          omega
        · exact hbud kv hold hne

/-- The solution built by `constructive_heuristic` satisfies the routes
invariant, the exact reverse-index mirror, the at-most-one-route property,
and the budget bound for every route that holds a customer. -/
theorem constructiveHeuristic_props {p : Problem} {alpha beta : ℚ} {draws : ℕ → ℕ}
    {fuel : ℕ} {out : Solution}
    (h : constructiveHeuristic p alpha beta draws fuel = some out) :
    RoutesInv p out.routes ∧ Mirrors out ∧ AtMostOne out ∧
      (∀ kv ∈ out.routes, interiorL kv.2.customers ≠ [] → kv.2.length ≤ p.tmax) := by
  rw [constructiveHeuristic] at h
  simp only [Option.bind_eq_bind] at h
  cases hacc : constructiveTrucks p alpha beta draws fuel (List.range p.nTrucks)
      ([], [], [0, p.n - 1], 0) with
  | none =>
    rw [hacc] at h
    simp at h
  | some acc =>
    rw [hacc] at h
    simp only [Option.some_bind] at h
    cases h
    obtain ⟨hinv, hm, hbud⟩ := constructiveTrucks_inv p alpha beta draws fuel
      (List.range p.nTrucks) [] [] [0, p.n - 1] 0 acc hacc
      (List.nodup_range _) (by simp) (by simp) (by simp)
      ⟨by simp [NodupKeys, dkeys], by simp, by simp⟩
      ⟨by simp, by simp⟩ (by simp) (by simp)
    exact ⟨hinv, hm, atMostOne_of_routesInv hinv, hbud⟩

/-! ### Stochastic reward bounds -/

/-- The feasible-trial count never exceeds the number of trials. -/
theorem stochasticCount_le (p : Problem) (route : Route) (nIter : ℕ) (sims : ℕ → ℕ → ℚ) :
    ((List.range nIter).countP fun trial =>
      decide ((((List.range (route.customers.length - 1)).map (sims trial)).sum ≤ p.tmax))) ≤
      nIter := by
  calc ((List.range nIter).countP _) ≤ (List.range nIter).length :=
        List.countP_le_length _
    _ = nIter := List.length_range _

theorem getRouteStochasticReward_bounds {p : Problem} {route : Route} {nIter : ℕ}
    {sims : ℕ → ℕ → ℚ} (hr : 0 ≤ route.reward) (hn : 1 ≤ nIter) :
    0 ≤ getRouteStochasticReward p route nIter sims ∧
      getRouteStochasticReward p route nIter sims ≤ (route.reward : ℚ) := by
  have hcle := stochasticCount_le p route nIter sims
  have h0n : (0 : ℚ) < (nIter : ℚ) := by
    have : (1 : ℚ) ≤ (nIter : ℚ) := by exact_mod_cast hn
    linarith
  have hr' : (0 : ℚ) ≤ (route.reward : ℚ) := by exact_mod_cast hr
  rw [getRouteStochasticReward]
  constructor
  · apply div_nonneg
    · apply mul_nonneg hr'
      positivity
    · exact le_of_lt h0n
  · rw [div_le_iff₀ h0n]
    have hc' : ((((List.range nIter).countP fun trial =>
        (((List.range (route.customers.length - 1)).map (sims trial)).sum ≤ p.tmax)) : ℕ) : ℚ)
        ≤ (nIter : ℚ) := by
      exact_mod_cast hcle
    calc (route.reward : ℚ) * _ ≤ (route.reward : ℚ) * (nIter : ℚ) :=
          mul_le_mul_of_nonneg_left hc' hr'
      _ = (route.reward : ℚ) * (nIter : ℚ) := rfl

/-! ### Concrete instances

Small four-customer instances (source `0`, sink `3`) used to evaluate the
embedded functions on closed inputs. -/

/-- A symmetric distance table, stored on sorted pairs. -/
def dExBase : ℕ → ℕ → ℚ
  | 0, 1 => 1
  | 0, 2 => 2
  | 0, 3 => 3
  | 1, 2 => 1
  | 1, 3 => 2
  | 2, 3 => 1
  | _, _ => 0

def dEx (i j : ℕ) : ℚ := dExBase (min i j) (max i j)

/-- Four customers, two trucks, rewards `5` and `7` on the two interior
customers. -/
def pEx : Problem :=
  ⟨2, 100, 4, fun i => if i = 1 then 5 else if i = 2 then 7 else 0, dEx⟩

theorem dEx_symm : ∀ i j, pEx.dists i j = pEx.dists j i := by
  intro i j
  show dEx i j = dEx j i
  rw [dEx, dEx, Nat.min_comm, Nat.max_comm]

/-- The single-route solution `[0, 1, 2, 3]` over `pEx`. -/
def solW3 : Solution := ⟨[(0, ⟨0, [0, 1, 2, 3], 3, 12⟩)], [(1, 0), (2, 0)]⟩

/-- A two-singleton-route seed over `pEx`. -/
def seedC6 : Solution :=
  ⟨[(0, ⟨0, [0, 1, 3], 3, 5⟩), (1, ⟨1, [0, 2, 3], 3, 7⟩)], [(1, 0), (2, 1)]⟩

/-- Uniform unit distances: the triangle inequality holds on all of ℕ. -/
def pU : Problem := ⟨1, 100, 4, fun _ => 1, fun i j => if i = j then 0 else 1⟩

def solU : Solution := ⟨[(0, ⟨0, [0, 1, 2, 3], 3, 3⟩)], [(1, 0), (2, 0)]⟩

theorem pU_triangle : ∀ a b c : ℕ, pU.dists a c ≤ pU.dists a b + pU.dists b c := by
  intro a b c
  show (if a = c then (0 : ℚ) else 1)
    ≤ (if a = b then (0 : ℚ) else 1) + (if b = c then (0 : ℚ) else 1)
  by_cases hab : a = b
  · subst hab
    by_cases hbc : a = c
    · subst hbc
      simp
    · simp [hbc]
  · by_cases hbc : b = c
    · subst hbc
      simp [hab]
    · by_cases hac : a = c
      · rw [if_pos hac, if_neg hab, if_neg hbc]
        norm_num
      · rw [if_neg hac, if_neg hab, if_neg hbc]
        norm_num

/-- A distance table that violates the triangle inequality on the pair
`(0, 2)` while staying symmetric. -/
def pC5 : Problem :=
  ⟨1, 100, 4, fun i => if i = 1 then 5 else if i = 2 then 7 else 0,
   fun i j => if i = j then 0 else if min i j = 0 ∧ max i j = 2 then 10 else 1⟩

def solC5 : Solution := ⟨[(0, ⟨0, [0, 1, 2, 3], 3, 12⟩)], [(1, 0), (2, 0)]⟩

/-- A route whose interior is in suboptimal order over `pEx`. -/
def routeC4 : Route := ⟨7, [0, 2, 1, 3], 5, 12⟩

/-- A route and a simulation oracle whose first trial is fast and whose
later trials are slow. -/
def route9 : Route := ⟨0, [0, 1, 3], 2, 5⟩

def sims9 : ℕ → ℕ → ℚ := fun t _ => if t = 0 then 1 else 100

/-- The solution `constructive_heuristic` builds on `pEx` with the
all-zeros draw stream. -/
def solC10 : Solution :=
  ⟨[(0, ⟨0, [0, 2, 1, 3], 5, 12⟩), (1, ⟨1, [0, 3], 3, 0⟩)], [(2, 0), (1, 0)]⟩

/-! ### The claims

The witnesses below evaluate the embedded functions on the concrete
instances; `Rat.add`, `Rat.mul`, `Rat.inv` and `Rat.sub` ship irreducible,
which only hides their defining equations from unfolding, so they are made
semireducible locally for those evaluations. -/

attribute [local semireducible] Rat.add Rat.mul Rat.inv Rat.sub

/-- C1: for every Problem and every seed Solution whose routes all fit the
budget (or no seed, in which case `init_solution` only builds reachable
singleton routes), `savings_heuristic` returns a Solution with at most
`n_trucks` routes, all of length at most `tmax`. -/
theorem savings_feasible {p : Problem} {alpha beta : ℚ} {draws : ℕ → ℕ}
    {seed : Option Solution} {sol : Solution}
    (h : savingsHeuristic p alpha beta draws seed = some sol)
    (hseed : ∀ s, seed = some s → AllShort p s.routes) :
    sol.routes.length ≤ p.nTrucks ∧ AllShort p sol.routes := by
  obtain ⟨order, sol1, _, hml, heq⟩ := savingsHeuristic_eq h
  have hall0 : AllShort p
      (match seed with | none => initSolution p | some s => s).routes := by
    cases seed with
    | none => exact initSolution_allShort p
    | some s => exact hseed s rfl
  have hall1 := mergeLoop_allShort p order _ sol1 hml hall0
  rw [heq]
  exact ⟨finalize_count p sol1, finalize_allShort hall1⟩

theorem savings_feasible_witness :
    savingsHeuristic pEx (3/10) (1/2) (fun _ => 0) none
        = some ⟨[(0, ⟨0, [0, 1, 2, 3], 3, 12⟩)], [(1, 0), (2, 0)]⟩ ∧
      (⟨[(0, ⟨0, [0, 1, 2, 3], 3, 12⟩)], [(1, 0), (2, 0)]⟩ : Solution).routes.length
          ≤ pEx.nTrucks ∧
      AllShort pEx (⟨[(0, ⟨0, [0, 1, 2, 3], 3, 12⟩)], [(1, 0), (2, 0)]⟩
        : Solution).routes :=
  ⟨by decide,
   @savings_feasible pEx (3/10) (1/2) (fun _ => 0) none
     ⟨[(0, ⟨0, [0, 1, 2, 3], 3, 12⟩)], [(1, 0), (2, 0)]⟩
     (by decide) (fun s hs => nomatch hs)⟩

/-- C2: merging the singleton routes `[source, i, sink]` and
`[source, j, sink]` on a saving `(i, j)` yields `[source, i, j, sink]`
with length `dist(source,i) + dist(i,j) + dist(j,sink)`, reward
`reward i + reward j`, and the first route's id. -/
theorem merge_singletons (p : Problem) (cToR : List (ℕ × ℕ)) (i j rid rid2 : ℕ)
    (hsym : ∀ a b, p.dists a b = p.dists b a) :
    (mergeRoutes p cToR
        ⟨rid, [0, i, p.n - 1], p.dists 0 i + p.dists i (p.n - 1), p.reward i⟩
        ⟨rid2, [0, j, p.n - 1], p.dists 0 j + p.dists j (p.n - 1), p.reward j⟩).1
      = ⟨rid, [0, i, j, p.n - 1],
          p.dists 0 i + p.dists i j + p.dists j (p.n - 1),
          p.reward i + p.reward j⟩ := by
  have hstep : (mergeRoutes p cToR
      ⟨rid, [0, i, p.n - 1], p.dists 0 i + p.dists i (p.n - 1), p.reward i⟩
      ⟨rid2, [0, j, p.n - 1], p.dists 0 j + p.dists j (p.n - 1), p.reward j⟩).1
      = ⟨rid, [0, i, j, p.n - 1],
          p.dists 0 i + p.dists i (p.n - 1) - p.dists i (p.n - 1) + p.dists i j
            + (p.dists 0 j + p.dists j (p.n - 1)) - p.dists 0 j,
          p.reward i + p.reward j⟩ := rfl
  rw [hstep]
  have harith : p.dists 0 i + p.dists i (p.n - 1) - p.dists i (p.n - 1) + p.dists i j
      + (p.dists 0 j + p.dists j (p.n - 1)) - p.dists 0 j
      = p.dists 0 i + p.dists i j + p.dists j (p.n - 1) := by ring
  rw [harith]

theorem merge_singletons_witness :
    (mergeRoutes pEx [] ⟨0, [0, 1, 3], pEx.dists 0 1 + pEx.dists 1 3, pEx.reward 1⟩
        ⟨1, [0, 2, 3], pEx.dists 0 2 + pEx.dists 2 3, pEx.reward 2⟩).1
      = ⟨0, [0, 1, 2, 3], pEx.dists 0 1 + pEx.dists 1 2 + pEx.dists 2 3,
          pEx.reward 1 + pEx.reward 2⟩ :=
  merge_singletons pEx [] 1 2 0 1 dEx_symm

/-- C4: with symmetric distances and a consistent recorded length, `opt2`
keeps the customer multiset, the source head and the sink tail, records
the exact leg sum of the new sequence, and never increases the length. -/
theorem opt2_correct {p : Problem} {route : Route} {fuel : ℕ}
    (hsym : ∀ i j, p.dists i j = p.dists j i)
    (hlen : route.length = legsSum p.dists route.customers) :
    (opt2 p route fuel).customers.Perm route.customers ∧
      (opt2 p route fuel).customers.head? = route.customers.head? ∧
      (opt2 p route fuel).customers.getLast? = route.customers.getLast? ∧
      (opt2 p route fuel).length = legsSum p.dists (opt2 p route fuel).customers ∧
      (opt2 p route fuel).length ≤ route.length := by
  obtain ⟨q1, q2, q3, q4, q5, _, _⟩ := opt2_spec p route fuel hsym
  refine ⟨q1, q2, q3, ?_, q5⟩
  rw [hlen] at q4
  linarith

theorem opt2_correct_witness :
    routeC4.length = legsSum pEx.dists routeC4.customers ∧
      ((opt2 pEx routeC4 4).customers.Perm routeC4.customers ∧
        (opt2 pEx routeC4 4).customers.head? = routeC4.customers.head? ∧
        (opt2 pEx routeC4 4).customers.getLast? = routeC4.customers.getLast? ∧
        (opt2 pEx routeC4 4).length = legsSum pEx.dists (opt2 pEx routeC4 4).customers ∧
        (opt2 pEx routeC4 4).length ≤ routeC4.length) :=
  ⟨by decide, opt2_correct dEx_symm (by decide)⟩

/-- C3: a solution returned by `savings_heuristic` (from a well-formed
seed), `constructive_heuristic`, `insert` or `remove` (from a well-formed
mirrored solution) keeps every non-depot customer in at most one route and
a reverse index that exactly mirrors route membership: every binding
points into its route's interior and every interior customer is bound to
its route's key. -/
theorem reverse_index_mirrors {p : Problem}
    (hsym : ∀ i j, p.dists i j = p.dists j i) :
    (∀ alpha beta draws seed out, savingsHeuristic p alpha beta draws seed = some out →
      (∀ s, seed = some s → RoutesInv p s.routes) →
      Mirrors out ∧ AtMostOne out) ∧
    (∀ alpha beta draws fuel out, constructiveHeuristic p alpha beta draws fuel = some out →
      Mirrors out ∧ AtMostOne out) ∧
    (∀ sol pick fuel out, insert p sol pick fuel = some out →
      RoutesInv p sol.routes → Mirrors sol → Mirrors out ∧ AtMostOne out) ∧
    (∀ sol pick pick2 fuel out, remove p sol pick pick2 fuel = some out →
      RoutesInv p sol.routes → Mirrors sol → Mirrors out ∧ AtMostOne out) := by
  refine ⟨?_, ?_, ?_, ?_⟩
  · intro alpha beta draws seed out h hseed
    obtain ⟨order, sol1, _, hml, heq⟩ := savingsHeuristic_eq h
    have hinv0 : RoutesInv p
        (match seed with | none => initSolution p | some s => s).routes := by
      cases seed with
      | none => exact initSolution_routesInv p
      | some s => exact hseed s rfl
    have hinv1 := mergeLoop_routesInv p order _ sol1 hml hinv0
    rw [heq]
    exact finalize_props hinv1
  · intro alpha beta draws fuel out h
    obtain ⟨_, hm, hamo, _⟩ := constructiveHeuristic_props h
    exact ⟨hm, hamo⟩
  · intro sol pick fuel out h hinv hm
    obtain ⟨hinv', hm'⟩ := insert_props hsym h hinv hm
    exact ⟨hm', atMostOne_of_routesInv hinv'⟩
  · intro sol pick pick2 fuel out h hinv hm
    obtain ⟨hinv', hm'⟩ := remove_props hsym h hinv hm
    exact ⟨hm', atMostOne_of_routesInv hinv'⟩

theorem reverse_index_mirrors_witness :
    remove pEx solW3 0 0 1 = some ⟨[(0, ⟨0, [0, 2, 3], 3, 7⟩)], [(2, 0)]⟩ ∧
      (Mirrors ⟨[(0, ⟨0, [0, 2, 3], 3, 7⟩)], [(2, 0)]⟩ ∧
        AtMostOne ⟨[(0, ⟨0, [0, 2, 3], 3, 7⟩)], [(2, 0)]⟩) :=
  ⟨by decide,
   (reverse_index_mirrors dEx_symm).2.2.2 solW3 0 0 1
     ⟨[(0, ⟨0, [0, 2, 3], 3, 7⟩)], [(2, 0)]⟩ (by decide)
     (by unfold RoutesInv WFRoute NodupKeys; decide)
     (by unfold Mirrors; decide)⟩

/-- C5 (amended with the triangle inequality and unique route keys): under
those hypotheses the route `remove` re-records in place of the picked
route is never longer than it, and the skip branches (at most one interior
customer, or a post-2-opt candidate over budget) leave the solution
unchanged.  Without the triangle inequality the delta-updated length can
grow, see the counterexample. -/
theorem remove_shortens {p : Problem} {sol : Solution} {pick pick2 fuel : ℕ}
    {out : Solution} {rIn : Route}
    (hnd : NodupKeys sol.routes)
    (htri : ∀ a b c, p.dists a c ≤ p.dists a b + p.dists b c)
    (h : remove p sol pick pick2 fuel = some out)
    (hin : dlookup (pickKey sol pick) sol.routes = some rIn) :
    (∀ rOut, dlookup (pickKey sol pick) out.routes = some rOut →
      rOut.length ≤ rIn.length) ∧
    (rIn.customers.length ≤ 3 → out = sol) ∧
    (p.tmax < (removeCandidate p (pickKey sol pick) rIn (removeIdx rIn pick2)
        fuel).length → out = sol) :=
  remove_length_spec hnd htri h hin

theorem remove_shortens_witness :
    remove pU solU 0 0 1 = some ⟨[(0, ⟨0, [0, 2, 3], 2, 2⟩)], [(2, 0)]⟩ ∧
      dlookup (pickKey solU 0) solU.routes = some ⟨0, [0, 1, 2, 3], 3, 3⟩ ∧
      ∀ rOut, dlookup (pickKey solU 0)
          (⟨[(0, ⟨0, [0, 2, 3], 2, 2⟩)], [(2, 0)]⟩ : Solution).routes = some rOut →
        rOut.length ≤ (⟨0, [0, 1, 2, 3], 3, 3⟩ : Route).length :=
  ⟨by decide, by decide,
   (@remove_shortens pU solU 0 0 1 ⟨[(0, ⟨0, [0, 2, 3], 2, 2⟩)], [(2, 0)]⟩
     ⟨0, [0, 1, 2, 3], 3, 3⟩ (by unfold NodupKeys; decide) pU_triangle
     (by decide) (by decide)).1⟩

/-- C5 counterexample: on a symmetric distance table violating the
triangle inequality (`dist(0,2) = 10` against `dist(0,1) + dist(1,2) = 2`)
`remove` commits a replacement route of length `11` in place of a route of
length `3`. -/
theorem remove_lengthens_cex :
    remove pC5 solC5 0 0 1 = some ⟨[(0, ⟨0, [0, 2, 3], 11, 7⟩)], [(2, 0)]⟩ ∧
      dlookup (pickKey solC5 0) solC5.routes = some ⟨0, [0, 1, 2, 3], 3, 12⟩ ∧
      dlookup (pickKey solC5 0)
          (⟨[(0, ⟨0, [0, 2, 3], 11, 7⟩)], [(2, 0)]⟩ : Solution).routes
        = some ⟨0, [0, 2, 3], 11, 7⟩ ∧
      ¬((⟨0, [0, 2, 3], 11, 7⟩ : Route).length
          ≤ (⟨0, [0, 1, 2, 3], 3, 12⟩ : Route).length) :=
  ⟨by decide, by decide, by decide, by decide⟩

/-- C6 (amended): `savings_heuristic` returns the seed object it was
passed, after mutating it: the seed's routes and reverse index at return
are those of the returned Solution — the finalize of the merge loop run on
the seed — not their pre-call values. -/
theorem savings_seed_after {p : Problem} {alpha beta : ℚ} {draws : ℕ → ℕ}
    {seed : Solution} {out : Solution}
    (h : savingsHeuristicSeedAfter p alpha beta draws seed = some out) :
    savingsHeuristic p alpha beta draws (some seed) = some out ∧
    ∃ order sol1,
      braSelector Saving.value beta draws (generateSavings p alpha) = some order ∧
      mergeLoop p order seed = some sol1 ∧ out = finalize p sol1 := by
  refine ⟨h, ?_⟩
  obtain ⟨order, sol1, ho, hml, heq⟩ :=
    savingsHeuristic_eq (h : savingsHeuristic p alpha beta draws (some seed) = some out)
  exact ⟨order, sol1, ho, hml, heq⟩

theorem savings_seed_after_witness :
    savingsHeuristic pEx (3/10) (1/2) (fun _ => 0) (some seedC6)
        = some ⟨[(0, ⟨0, [0, 1, 2, 3], 3, 12⟩)], [(1, 0), (2, 0)]⟩ ∧
    ∃ order sol1,
      braSelector Saving.value (1/2) (fun _ => 0) (generateSavings pEx (3/10))
        = some order ∧
      mergeLoop pEx order seedC6 = some sol1 ∧
      (⟨[(0, ⟨0, [0, 1, 2, 3], 3, 12⟩)], [(1, 0), (2, 0)]⟩ : Solution)
        = finalize pEx sol1 :=
  savings_seed_after (by decide)

/-- C6 counterexample: a two-route seed is left merged and re-indexed by
the call — its routes and reverse index after the call are not their
pre-call values. -/
theorem savings_mutates_seed_cex :
    savingsHeuristicSeedAfter pEx (3/10) (1/2) (fun _ => 0) seedC6
        = some ⟨[(0, ⟨0, [0, 1, 2, 3], 3, 12⟩)], [(1, 0), (2, 0)]⟩ ∧
      (⟨[(0, ⟨0, [0, 1, 2, 3], 3, 12⟩)], [(1, 0), (2, 0)]⟩ : Solution) ≠ seedC6 :=
  ⟨by decide, by decide⟩

/-- C7: on a solution holding exactly one route — which has at least one
route, as the claim requires — `shaking` pops that route and then takes
`max` of the now-empty key set: the modelled `ValueError` makes the run
abort (`none`), refuting "completes without error". -/
theorem shaking_single_route_crashes :
    solW3.routes ≠ [] ∧
      shaking pEx solW3 (3/10) (1/2) 0 (fun _ => 0) = none :=
  ⟨by decide, by decide⟩

/-- C8 (amended to beta in the open interval (0,1)): the selector consumes
its whole input and yields a permutation of it; at `beta = 1` (allowed by
the claim's "(0,1]") the first draw's `log` base is `0.0` and Python
raises `ValueError: math domain error`, see the counterexample. -/
theorem bra_selector_perm_beta_lt_one {α : Type} (val : α → ℚ) {beta : ℚ}
    (draws : ℕ → ℕ) (lst : List α) (h0 : 0 < beta) (h1 : beta < 1) :
    ∃ ys, braSelector val beta draws lst = some ys ∧ ys.Perm lst := by
  obtain ⟨he, hp⟩ := braSelector_perm val draws lst h0 h1
  exact ⟨_, he, hp⟩

theorem bra_selector_perm_witness :
    ∃ ys, braSelector (fun q : ℚ => q) (1/2) (fun _ => 0) [(3 : ℚ), 1, 2]
        = some ys ∧ ys.Perm [(3 : ℚ), 1, 2] :=
  bra_selector_perm_beta_lt_one (fun q : ℚ => q) (fun _ => 0) [(3 : ℚ), 1, 2]
    (by norm_num) (by norm_num)

/-- C8 counterexample: at `beta = 1` — inside the claimed range `(0,1]` —
the selector raises at its first draw on any nonempty input instead of
yielding the one candidate. -/
theorem bra_selector_beta_one_cex :
    braSelector (fun q : ℚ => q) 1 (fun _ => 0) [(5 : ℚ)] = none := by decide

/-- C9: the stochastic evaluator returns the deterministic reward scaled
by the fraction of trials whose simulated leg times sum within `tmax`;
with a non-negative reward and at least one trial the result lies between
`0` and the deterministic reward. -/
theorem stochastic_reward_bounds {p : Problem} {route : Route} {nIter : ℕ}
    {sims : ℕ → ℕ → ℚ} (hr : 0 ≤ route.reward) (hn : 1 ≤ nIter) :
    getRouteStochasticReward p route nIter sims
        = (route.reward : ℚ) *
          ((((List.range nIter).countP fun trial =>
            ((List.range (route.customers.length - 1)).map (sims trial)).sum
              ≤ p.tmax) : ℕ) : ℚ) / (nIter : ℚ) ∧
      0 ≤ getRouteStochasticReward p route nIter sims ∧
      getRouteStochasticReward p route nIter sims ≤ (route.reward : ℚ) :=
  ⟨rfl, getRouteStochasticReward_bounds hr hn⟩

theorem stochastic_reward_bounds_witness :
    getRouteStochasticReward pEx route9 2 sims9 = 5/2 ∧
      0 ≤ getRouteStochasticReward pEx route9 2 sims9 ∧
      getRouteStochasticReward pEx route9 2 sims9 ≤ (route9.reward : ℚ) :=
  ⟨by decide, (stochastic_reward_bounds (by decide) (by decide)).2⟩

/-- C10: every route built by `constructive_heuristic` that holds at least
one non-depot customer has recorded length within `tmax` — the candidate
filter pre-pays the closing leg to the sink; the trivial `[source, sink]`
routes carry no such bound. -/
theorem constructive_budget {p : Problem} {alpha beta : ℚ} {draws : ℕ → ℕ}
    {fuel : ℕ} {out : Solution}
    (h : constructiveHeuristic p alpha beta draws fuel = some out) :
    ∀ kv ∈ out.routes, interiorL kv.2.customers ≠ [] → kv.2.length ≤ p.tmax :=
  fun kv hkv hne => (constructiveHeuristic_props h).2.2.2 kv hkv hne

theorem constructive_budget_witness :
    constructiveHeuristic pEx (3/10) (1/2) (fun _ => 0) 8 = some solC10 ∧
      ∀ kv ∈ solC10.routes, interiorL kv.2.customers ≠ [] →
        kv.2.length ≤ pEx.tmax :=
  ⟨by decide,
   @constructive_budget pEx (3/10) (1/2) (fun _ => 0) 8 solC10 (by decide)⟩

end TOP
